import Mathlib

/-!
Verification of the binary-puzzle repository (Takuzu/Binairo validator and
solver).  The Python sources `src/binary_puzzle/puzzle.py` and
`src/binary_puzzle/solver.py` are shallowly embedded: grids become lists of
lists of integers (UNKNOWN cells are -1, as in the source), numpy operations
become explicit list computations, the PuLP constraint model becomes an
explicit list of linear constraints over boolean decision variables, and the
external LP solver becomes an oracle parameter constrained by its
feasibility contract.
-/

set_option maxHeartbeats 1000000
set_option maxRecDepth 10000

namespace BinPuz

/-- Wrap an integer into the np.int8 range [-128, 127], as
`np.asarray(..., dtype=np.int8)` does on construction. -/
def toInt8 (z : ℤ) : ℤ := (z + 128) % 256 - 128

/-- Apply the int8 conversion cellwise, as `np.asarray(grid, dtype=np.int8)`
does to the nested input list. -/
def asarrayInt8 (g : List (List ℤ)) : List (List ℤ) := g.map (·.map toInt8)

/-- Construction failures of `BinaryPuzzle.__init__`.  `inhomogeneous` is the
ValueError numpy itself raises inside `np.asarray(..., dtype=np.int8)` on a
ragged nested list (such input never reaches `_check_valid_shape`); the other
four are the ValueErrors of `_check_valid_shape`, in source order. -/
inductive ConstructErr
  | inhomogeneous
  | dims (d : ℕ)
  | notSquare (m n : ℕ)
  | oddSize
  | minSize
  deriving DecidableEq, Repr

/-- A constructed puzzle: the int8 cell matrix.  Cells hold -1 for UNKNOWN. -/
structure BinaryPuzzle where
  grid : List (List ℤ)
  deriving DecidableEq, Repr

/-- `self.N = self.grid.shape[0]`: the first dimension, the number of rows. -/
def BinaryPuzzle.N (p : BinaryPuzzle) : ℕ := p.grid.length

/-- `BinaryPuzzle.__init__`: convert the nested list with
`np.asarray(..., dtype=np.int8)` (a ragged list makes numpy raise; the empty
list gives the 1-dimensional shape (0,)), then run `_check_valid_shape`:
2-dimensional, square, even size, size nonzero, in that order. -/
def construct (g : List (List ℤ)) : Except ConstructErr BinaryPuzzle :=
  match g with
  | [] => .error (.dims 1)
  | r0 :: rs =>
    if (r0 :: rs).all (fun row => row.length == r0.length) then
      if (r0 :: rs).length ≠ r0.length then
        .error (.notSquare (r0 :: rs).length r0.length)
      else if (r0 :: rs).length % 2 ≠ 0 then .error .oddSize
      else if (r0 :: rs).length = 0 then .error .minSize
      else .ok ⟨asarrayInt8 (r0 :: rs)⟩
    else .error .inhomogeneous

/-- `check_binary`: `np.isin(self.grid, [0, 1]).all()`. -/
def BinaryPuzzle.check_binary (p : BinaryPuzzle) : Bool :=
  p.grid.all (fun row => row.all (fun v => v == 0 || v == 1))

/-- Transpose of a square matrix (`self.grid.T` / `sum(axis=0)` column
access); `g.length` columns, each read across the rows. -/
def transposeSq (g : List (List ℤ)) : List (List ℤ) :=
  (List.range g.length).map (fun c => g.map (fun row => row.getD c 0))

/-- `check_parity`: every column sum and every row sum equals N/2
(exact for the even sizes the constructor admits). -/
def BinaryPuzzle.check_parity (p : BinaryPuzzle) : Bool :=
  (transposeSq p.grid).all (fun col => col.sum == (p.N : ℤ) / 2) &&
  p.grid.all (fun row => row.sum == (p.N : ℤ) / 2)

/-- One row of `_check_triples_row`: every window `row[i:i+3]`,
`i ∈ range(len(row)-3+1)`, has sum outside {0, 3}. -/
def triplesRowOk (row : List ℤ) : Bool :=
  (List.range (row.length - 2)).all (fun i =>
    !(((row.drop i).take 3).sum == 0 || ((row.drop i).take 3).sum == 3))

/-- `check_triples`: `_check_triples_row` on the grid and on its transpose. -/
def BinaryPuzzle.check_triples (p : BinaryPuzzle) : Bool :=
  (p.grid.all triplesRowOk) && ((transposeSq p.grid).all triplesRowOk)

/-- `check_uniqueness`: `np.unique(grid, axis=0).shape[0] == N` (the number
of distinct rows is N) and likewise for columns. -/
def BinaryPuzzle.check_uniqueness (p : BinaryPuzzle) : Bool :=
  (p.grid.dedup.length == p.N) && ((transposeSq p.grid).dedup.length == p.N)

/-- `check`: conjunction of the four rules in the fixed source order. -/
def BinaryPuzzle.check (p : BinaryPuzzle) : Bool :=
  p.check_binary && p.check_parity && p.check_triples && p.check_uniqueness

/-- `verify`: the same four predicates in the same order, but the first
failing one raises a ValueError with its rule-specific message; on success
it returns True. -/
def BinaryPuzzle.verify (p : BinaryPuzzle) : Except String Bool :=
  if !p.check_binary then
    .error "All grid values must be 0 or 1"
  else if !p.check_parity then
    .error "All rows and columns must have equal amount of 0 and 1 (parity)"
  else if !p.check_triples then
    .error "No row and column are allowed to have three times the same number (triples)"
  else if !p.check_uniqueness then
    .error "All rows and columns must be unique"
  else .ok true

/-! ### CSV serialization (`to_csv` / `from_csv`)

`to_csv` renders each cell as its decimal string, replaces the string "-1"
by the empty field, joins fields with commas and terminates every row with a
newline (`np.savetxt`).  `from_csv` (`np.genfromtxt(..., dtype=np.int8,
filling_values=-1)`) splits the text into lines (blank lines are skipped),
splits each line on commas, maps empty fields to the filling value -1,
parses the rest as integers (failing with a parse error on non-numeric
content), then runs the `BinaryPuzzle` constructor. -/

instance {ε α : Type} [DecidableEq ε] [DecidableEq α] :
    DecidableEq (Except ε α) := fun x y =>
  match x, y with
  | .ok a, .ok b =>
    if h : a = b then isTrue (by rw [h])
    else isFalse (fun hc => by injection hc with h2; exact h h2)
  | .error a, .error b =>
    if h : a = b then isTrue (by rw [h])
    else isFalse (fun hc => by injection hc with h2; exact h h2)
  | .ok _, .error _ => isFalse (fun hc => Except.noConfusion hc)
  | .error _, .ok _ => isFalse (fun hc => Except.noConfusion hc)

/-- Decimal digit characters of a natural number (Python `str`). -/
def natChars (n : ℕ) : List Char := Nat.toDigits 10 n

/-- Python `str` of an integer. -/
def intChars (v : ℤ) : List Char :=
  if v < 0 then '-' :: natChars v.natAbs else natChars v.toNat

/-- One CSV field of `to_csv`: the value -1 renders as the empty field. -/
def serField (v : ℤ) : List Char := if v = -1 then [] else intChars v

/-- Join fields with a separator character. -/
def joinWithChar (sep : Char) : List (List Char) → List Char
  | [] => []
  | [f] => f
  | f :: g :: fs => f ++ sep :: joinWithChar sep (g :: fs)

/-- Split a character list at every occurrence of the separator. -/
def splitOnChar (sep : Char) : List Char → List (List Char)
  | [] => [[]]
  | c :: cs =>
    let r := splitOnChar sep cs
    if c = sep then [] :: r else (c :: r.headD []) :: r.tail

/-- One output line of `to_csv`: the row's fields joined by commas. -/
def toCsvLine (row : List ℤ) : List Char := joinWithChar ',' (row.map serField)

/-- The text `np.savetxt` writes: every row's line followed by a newline. -/
def linesOut : List (List ℤ) → List Char
  | [] => []
  | row :: rest => toCsvLine row ++ '\n' :: linesOut rest

/-- `to_csv` as a text producer (the file contents written). -/
def BinaryPuzzle.to_csv (p : BinaryPuzzle) : List Char := linesOut p.grid

/-- Deserialization failures of `np.genfromtxt`: malformed field content
(`parseErr`, the converter's ValueError), an inconsistent column count
(`columnMismatch`, raised while reading rows, before any field is
converted), each distinct from the constructor's shape errors. -/
inductive CsvErr
  | parseErr
  | columnMismatch
  | shape (e : ConstructErr)
  deriving DecidableEq, Repr

/-- Numeric value of a decimal digit character. -/
def digitVal? (c : Char) : Option ℕ :=
  if '0' ≤ c ∧ c ≤ '9' then some (c.toNat - '0'.toNat) else none

/-- The ASCII whitespace that Python's `int` conversion strips from both
ends of a field (`bytes.isspace`: genfromtxt's default bytes mode hands the
converter byte strings, so only ASCII applies). -/
def isPySpace (c : Char) : Bool :=
  c = ' ' || c = '\t' || c = '\n' || c = '\r' || c = '\x0b' || c = '\x0c'

/-- Strip `isPySpace` characters from both ends. -/
def pyStrip (f : List Char) : List Char :=
  ((f.dropWhile isPySpace).reverse.dropWhile isPySpace).reverse

/-- After a first digit: further digits, with a single underscore allowed
between two digits (Python integer-literal grouping: no leading, trailing
or doubled underscore). -/
def digitsUndAux : List Char → ℕ → Option ℕ
  | [], acc => some acc
  | '_' :: cs, acc =>
    match cs with
    | [] => none
    | c :: cs2 =>
      match digitVal? c with
      | some d => digitsUndAux cs2 (10 * acc + d)
      | none => none
  | c :: cs, acc =>
    match digitVal? c with
    | some d => digitsUndAux cs (10 * acc + d)
    | none => none

/-- Digit run as Python `int` accepts it: at least one digit, underscores
only between digits. -/
def pyDigits? : List Char → Option ℕ
  | [] => none
  | c :: cs =>
    match digitVal? c with
    | some d => digitsUndAux cs d
    | none => none

/-- A field as Python's `int` parses it (genfromtxt's integer converter):
optional surrounding ASCII whitespace, an optional single `+` or `-` sign,
then a digit run with single underscores allowed between digits; `none` on
anything else (including empty or whitespace-only content). -/
def charsInt? (f : List Char) : Option ℤ :=
  match pyStrip f with
  | '-' :: cs => (pyDigits? cs).map (fun n => -(n : ℤ))
  | '+' :: cs => (pyDigits? cs).map (fun n => (n : ℤ))
  | cs => (pyDigits? cs).map (fun n => (n : ℤ))

/-- One field of `np.genfromtxt(..., dtype=np.int8, filling_values=-1)`:
an empty field is missing data and becomes -1; otherwise the content must
parse as an integer (converted to int8), else the ValueError `parseErr`. -/
def parseField (f : List Char) : Except CsvErr ℤ :=
  if f.isEmpty then .ok (-1)
  else
    match charsInt? f with
    | some v => .ok (toInt8 v)
    | none => .error .parseErr

/-- genfromtxt's default comment handling (`comments='#'`): each line is
truncated at its first `#`. -/
def stripComment (l : List Char) : List Char := l.takeWhile (fun c => c ≠ '#')

/-- The comma-split field rows `np.genfromtxt` reads from the text: lines,
comments stripped, lines blank after stripping skipped, each split on the
delimiter. -/
def csvRows (s : List Char) : List (List (List Char)) :=
  (((splitOnChar '\n' s).map stripComment).filter
    (fun l => !l.isEmpty)).map (splitOnChar ',')

/-- `from_csv`: read the field rows; `genfromtxt` first validates that
every row has the first row's column count (else its column-count
ValueError), then converts every field (else the converter's ValueError),
then the `BinaryPuzzle` constructor runs on the resulting matrix. -/
def from_csv (s : List Char) : Except CsvErr BinaryPuzzle :=
  if (csvRows s).all (fun r => r.length == ((csvRows s).headD []).length) then
    match (csvRows s).mapM (fun r => r.mapM parseField) with
    | .error e => .error e
    | .ok rows =>
      match construct rows with
      | .ok p => .ok p
      | .error e => .error (.shape e)
  else .error .columnMismatch

/-! ### The LP model and enumeration loop of `solver.py`

One boolean decision variable per (row, column, value) triple, addressed at
the flat index `idx`; the PuLP problem becomes a list of linear constraints;
`prob.solve(...)` becomes an oracle parameter whose contract (`OracleOk`)
is the request/response contract of §6 of the design: a returned assignment
satisfies every constraint, and an infeasible report means no assignment
does.  The unbounded `while True` loops become fuel-indexed recursions;
`none` marks fuel exhaustion and is proved unreachable for the fuel bound
`bigFuel` (the termination claim). -/

/-- Flat index of decision variable `grid_value_{r}_{c}_{v}`. -/
def idx (N r c v : ℕ) : ℕ := 2 * (r * N + c) + v

/-- A linear constraint: coefficient/variable pairs, a relation
(`isLe = true` for ≤, false for =) and a right-hand side. -/
structure Constr where
  coefs : List (ℤ × ℕ)
  isLe : Bool
  rhs : ℤ
  deriving DecidableEq, Repr

/-- Value a term contributes under an assignment. -/
def evalTerm (a : List Bool) (t : ℤ × ℕ) : ℤ :=
  if a.getD t.2 false then t.1 else 0

/-- Left-hand side of a constraint under an assignment. -/
def evalSum (a : List Bool) (c : Constr) : ℤ := (c.coefs.map (evalTerm a)).sum

/-- 0/1 indicator of a decision variable under an assignment. -/
def ind (a : List Bool) (i : ℕ) : ℤ := if a.getD i false then 1 else 0

/-- Whether an assignment satisfies one constraint. -/
def satisfies (a : List Bool) (c : Constr) : Bool :=
  if c.isLe then decide (evalSum a c ≤ c.rhs) else evalSum a c == c.rhs

/-- Cell lookup `self.grid[row][col]` (out-of-range reads never occur on
constructed grids; they default to UNKNOWN). -/
def BinaryPuzzle.cellAt (p : BinaryPuzzle) (r c : ℕ) : ℤ :=
  (p.grid.getD r []).getD c (-1)

/-- CONSTRAINT 1: each cell takes exactly one value. -/
def cellExclConstr (N r c : ℕ) : Constr :=
  ⟨[0, 1].map (fun v => ((1 : ℤ), idx N r c v)), false, 1⟩

/-- CONSTRAINT 2: each row holds value `v` exactly N/2 times. -/
def rowParityConstr (N r v : ℕ) : Constr :=
  ⟨(List.range N).map (fun c => ((1 : ℤ), idx N r c v)), false, (N : ℤ) / 2⟩

/-- CONSTRAINT 3: each column holds value `v` exactly N/2 times. -/
def colParityConstr (N c v : ℕ) : Constr :=
  ⟨(List.range N).map (fun r => ((1 : ℤ), idx N r c v)), false, (N : ℤ) / 2⟩

/-- CONSTRAINT 4 (rows): in the window starting at offset `t`, at most two
of three consecutive cells of row `r` take value `v`. -/
def rowTripleConstr (N t r v : ℕ) : Constr :=
  ⟨(List.range 3).map (fun c => ((1 : ℤ), idx N r (c + t) v)), true, 2⟩

/-- CONSTRAINT 4 (columns). -/
def colTripleConstr (N t c v : ℕ) : Constr :=
  ⟨(List.range 3).map (fun r => ((1 : ℤ), idx N (r + t) c v)), true, 2⟩

/-- Clue fixation: `Σ value·var = grid[row][col]` for a pre-filled cell. -/
def clueConstr (N r c : ℕ) (val : ℤ) : Constr :=
  ⟨([0, 1] : List ℕ).map (fun v : ℕ => ((v : ℤ), idx N r c v)), false, val⟩

/-- `_build_model`: all constraint groups in source order (the constant
zero objective is omitted — it constrains nothing). -/
def buildModel (p : BinaryPuzzle) : List Constr :=
  ((List.range p.N).flatMap fun r =>
    (List.range p.N).map fun c => cellExclConstr p.N r c) ++
  ((List.range p.N).flatMap fun r =>
    [0, 1].map fun v => rowParityConstr p.N r v) ++
  ((List.range p.N).flatMap fun c =>
    [0, 1].map fun v => colParityConstr p.N c v) ++
  ((List.range (p.N - 2)).flatMap fun t =>
    [0, 1].flatMap fun v =>
      ((List.range p.N).map fun r => rowTripleConstr p.N t r v) ++
      ((List.range p.N).map fun c => colTripleConstr p.N t c v)) ++
  ((List.range p.N).flatMap fun r =>
    (List.range p.N).filterMap fun c =>
      if p.cellAt r c ≠ -1 then some (clueConstr p.N r c (p.cellAt r c))
      else none)

/-- `_decision_var_to_puzzle`, per cell: start from 0, then for each value
in order [0, 1] overwrite when that value's variable is set. -/
def extractCell (a : List Bool) (N r c : ℕ) : ℤ :=
  if a.getD (idx N r c 1) false then 1
  else if a.getD (idx N r c 0) false then 0 else 0

/-- `_decision_var_to_puzzle`: the candidate grid read off an assignment. -/
def extract (a : List Bool) (N : ℕ) : BinaryPuzzle :=
  ⟨(List.range N).map fun r => (List.range N).map fun c => extractCell a N r c⟩

/-- All decision-variable indices in (row, col, value) iteration order. -/
def allVars (N : ℕ) : List ℕ :=
  (List.range N).flatMap fun r =>
    (List.range N).flatMap fun c => [idx N r c 0, idx N r c 1]

/-- `_add_current_solution_as_constraint`: the sum of the variables
currently set true is at most N² - 1. -/
def exclusionConstr (N : ℕ) (a : List Bool) : Constr :=
  ⟨((allVars N).filter (fun i => a.getD i false)).map (fun i => ((1 : ℤ), i)),
    true, (N : ℤ) ^ 2 - 1⟩

/-- All boolean lists of a given length. -/
def allBoolLists : ℕ → List (List Bool)
  | 0 => [[]]
  | n + 1 => (allBoolLists n).flatMap (fun l => [false :: l, true :: l])

/-- The assignment space: one boolean per variable. -/
def allAssign (N : ℕ) : List (List Bool) := allBoolLists (2 * N * N)

/-- Whether an assignment satisfies a whole constraint system. -/
def satAll (prob : List Constr) (a : List Bool) : Bool := prob.all (satisfies a)

/-- The external solver contract of §6: a feasible response carries an
assignment satisfying every constraint; an infeasible response means no
assignment satisfies them all. -/
def OracleOk (N : ℕ) (oracle : List Constr → Option (List Bool)) : Prop :=
  ∀ prob : List Constr,
    match oracle prob with
    | some a => a ∈ allAssign N ∧ satAll prob a = true
    | none => ∀ a ∈ allAssign N, satAll prob a = false

/-- The `while True` loop of `solve`, indexed by fuel.  `none` = fuel ran
out (proved unreachable for `bigFuel`); `some none` = the solver reported
infeasible and the Python function returns None; `some (some s)` = the
candidate passed `check` and is returned. -/
def solveLoop (N : ℕ) (oracle : List Constr → Option (List Bool)) :
    ℕ → List Constr → Option (Option BinaryPuzzle)
  | 0, _ => none
  | fuel + 1, prob =>
    match oracle prob with
    | none => some none
    | some a =>
      if (extract a N).check then some (some (extract a N))
      else solveLoop N oracle fuel (prob ++ [exclusionConstr N a])

/-- The `while True` loop of `solve_all` with its accumulator: candidates
passing `check` are appended; every candidate is excluded; the loop stops
when the solver reports infeasible. -/
def solveAllLoop (N : ℕ) (oracle : List Constr → Option (List Bool)) :
    ℕ → List Constr → List BinaryPuzzle → Option (List BinaryPuzzle)
  | 0, _, _ => none
  | fuel + 1, prob, acc =>
    match oracle prob with
    | none => some acc
    | some a =>
      solveAllLoop N oracle fuel (prob ++ [exclusionConstr N a])
        (if (extract a N).check then acc ++ [extract a N] else acc)

/-- Fuel exceeding the number of boolean assignments. -/
def bigFuel (N : ℕ) : ℕ := (allAssign N).length + 1

/-- `solve`, run with sufficient fuel. -/
def solve (oracle : List Constr → Option (List Bool)) (p : BinaryPuzzle) :
    Option (Option BinaryPuzzle) :=
  solveLoop p.N oracle (bigFuel p.N) (buildModel p)

/-- `solve_all`, run with sufficient fuel. -/
def solve_all (oracle : List Constr → Option (List Bool)) (p : BinaryPuzzle) :
    Option (List BinaryPuzzle) :=
  solveAllLoop p.N oracle (bigFuel p.N) (buildModel p) []

/-- Number of assignments satisfying a system (the loop measure). -/
def satCount (N : ℕ) (prob : List Constr) : ℕ :=
  ((allAssign N).filter (satAll prob)).length

/-- A brute-force solver satisfying the contract, used as a concrete
oracle for witnesses. -/
def bruteOracle (N : ℕ) (prob : List Constr) : Option (List Bool) :=
  (allAssign N).find? (satAll prob)

/-- The assignment encoding a fully-filled binary grid: variable
(r, c, v) is true iff cell (r, c) holds v. -/
def encodeA (p : BinaryPuzzle) : List Bool :=
  (List.range (2 * p.N * p.N)).map fun i =>
    p.cellAt (i / 2 / p.N) (i / 2 % p.N) == ((i % 2 : ℕ) : ℤ)

/-! ### Round-trip lemmas for the CSV layer -/

/-- The 256 values an int8 cell can hold. -/
def int8Range : List ℤ := (List.range 256).map (fun n => (n : ℤ) - 128)

theorem mem_int8Range {v : ℤ} (h1 : -128 ≤ v) (h2 : v ≤ 127) :
    v ∈ int8Range := by
  have hn : ((v + 128).toNat : ℤ) = v + 128 :=
    Int.toNat_of_nonneg (by omega)
  have hlt : (v + 128).toNat ∈ List.range 256 := List.mem_range.mpr (by omega)
  have heq : v = ((v + 128).toNat : ℤ) - 128 := by omega
  rw [heq, int8Range]
  exact List.mem_map_of_mem (fun n : ℕ => (n : ℤ) - 128) hlt

/-- Field-level facts, checked for every int8 value: serializing then
parsing is the identity, and no serialized field contains a comma, a
newline or a comment character. -/
theorem field_facts : ∀ v ∈ int8Range,
    parseField (serField v) = Except.ok v ∧
    ',' ∉ serField v ∧ '\n' ∉ serField v ∧ '#' ∉ serField v := by decide

theorem toInt8_bounds (z : ℤ) : -128 ≤ toInt8 z ∧ toInt8 z ≤ 127 := by
  unfold toInt8
  have h1 : 0 ≤ (z + 128) % 256 := Int.emod_nonneg _ (by norm_num)
  have h2 : (z + 128) % 256 < 256 := Int.emod_lt_of_pos _ (by norm_num)
  omega

theorem toInt8_fixed {v : ℤ} (h1 : -128 ≤ v) (h2 : v ≤ 127) : toInt8 v = v := by
  unfold toInt8
  rw [Int.emod_eq_of_lt (by omega) (by omega)]
  ring

theorem splitOnChar_cons (sep c : Char) (cs : List Char) :
    splitOnChar sep (c :: cs) =
      if c = sep then [] :: splitOnChar sep cs
      else (c :: (splitOnChar sep cs).headD []) :: (splitOnChar sep cs).tail :=
  rfl

theorem splitOnChar_append (sep : Char) (f rest : List Char) (hf : sep ∉ f) :
    splitOnChar sep (f ++ sep :: rest) = f :: splitOnChar sep rest := by
  induction f with
  | nil => simp [splitOnChar_cons]
  | cons c cs ih =>
    have hc : ¬c = sep := fun h => hf (by simp [h])
    have hcs : sep ∉ cs := fun h => hf (List.mem_cons_of_mem _ h)
    rw [List.cons_append, splitOnChar_cons, if_neg hc, ih hcs,
      List.headD_cons, List.tail_cons]

theorem splitOnChar_no_sep (sep : Char) (f : List Char) (hf : sep ∉ f) :
    splitOnChar sep f = [f] := by
  induction f with
  | nil => rfl
  | cons c cs ih =>
    have hc : ¬c = sep := fun h => hf (by simp [h])
    have hcs : sep ∉ cs := fun h => hf (List.mem_cons_of_mem _ h)
    rw [splitOnChar_cons, if_neg hc, ih hcs, List.headD_cons, List.tail_cons]

theorem splitOnChar_join (sep : Char) (fs : List (List Char)) (hne : fs ≠ [])
    (hsep : ∀ f ∈ fs, sep ∉ f) :
    splitOnChar sep (joinWithChar sep fs) = fs := by
  induction fs with
  | nil => exact absurd rfl hne
  | cons f gs ih =>
    cases gs with
    | nil => exact splitOnChar_no_sep sep f (hsep f (by simp))
    | cons g hs =>
      rw [joinWithChar, splitOnChar_append sep f _ (hsep f (by simp))]
      rw [ih (by simp) (fun x hx => hsep x (List.mem_cons_of_mem _ hx))]

theorem mem_joinWithChar {sep x : Char} {fs : List (List Char)}
    (hx : x ∈ joinWithChar sep fs) : x = sep ∨ ∃ f ∈ fs, x ∈ f := by
  induction fs with
  | nil => simp [joinWithChar] at hx
  | cons f gs ih =>
    cases gs with
    | nil =>
      right
      exact ⟨f, by simp, hx⟩
    | cons g hs =>
      rw [joinWithChar, List.mem_append, List.mem_cons] at hx
      rcases hx with hx | hx | hx
      · right; exact ⟨f, by simp, hx⟩
      · left; exact hx
      · rcases ih hx with h | ⟨f2, hf2, hxf2⟩
        · left; exact h
        · right; exact ⟨f2, List.mem_cons_of_mem _ hf2, hxf2⟩

theorem joinWithChar_two_ne_nil (sep : Char) (f g : List Char)
    (fs : List (List Char)) : joinWithChar sep (f :: g :: fs) ≠ [] := by
  rw [joinWithChar]
  simp

/-- An in-range row serializes to a line that parses back to the row. -/
theorem mapM_parseField_serField (row : List ℤ)
    (hr : ∀ v ∈ row, -128 ≤ v ∧ v ≤ 127) :
    (row.map serField).mapM parseField = Except.ok row := by
  induction row with
  | nil => rfl
  | cons v t ih =>
    have hv := (field_facts v (mem_int8Range (hr v (by simp)).1 (hr v (by simp)).2)).1
    have ht := ih (fun w hw => hr w (List.mem_cons_of_mem _ hw))
    rw [List.map_cons, List.mapM_cons, hv, ht]
    rfl

theorem split_toCsvLine (row : List ℤ) (hne : row ≠ [])
    (hr : ∀ v ∈ row, -128 ≤ v ∧ v ≤ 127) :
    splitOnChar ',' (toCsvLine row) = row.map serField := by
  unfold toCsvLine
  apply splitOnChar_join ',' _ (by simpa using hne)
  intro f hf
  rw [List.mem_map] at hf
  obtain ⟨v, hv, rfl⟩ := hf
  exact (field_facts v (mem_int8Range (hr v hv).1 (hr v hv).2)).2.1

theorem no_newline_toCsvLine (row : List ℤ)
    (hr : ∀ v ∈ row, -128 ≤ v ∧ v ≤ 127) : '\n' ∉ toCsvLine row := by
  intro hmem
  rcases mem_joinWithChar hmem with h | ⟨f, hf, hxf⟩
  · exact absurd h (by decide)
  · rw [List.mem_map] at hf
    obtain ⟨v, hv, rfl⟩ := hf
    exact (field_facts v (mem_int8Range (hr v hv).1 (hr v hv).2)).2.2.1 hxf

theorem no_hash_toCsvLine (row : List ℤ)
    (hr : ∀ v ∈ row, -128 ≤ v ∧ v ≤ 127) : '#' ∉ toCsvLine row := by
  intro hmem
  rcases mem_joinWithChar hmem with h | ⟨f, hf, hxf⟩
  · exact absurd h (by decide)
  · rw [List.mem_map] at hf
    obtain ⟨v, hv, rfl⟩ := hf
    exact (field_facts v (mem_int8Range (hr v hv).1 (hr v hv).2)).2.2.2 hxf

theorem stripComment_eq_self {l : List Char} (h : '#' ∉ l) :
    stripComment l = l := by
  unfold stripComment
  induction l with
  | nil => rfl
  | cons c cs ih =>
    have hc : c ≠ '#' := fun hcc => h (by rw [hcc]; simp)
    rw [List.takeWhile_cons, if_pos (by simp [hc])]
    rw [ih (fun hm => h (List.mem_cons_of_mem _ hm))]

/-- Helper: construction succeeds on any rectangular, square, even-size,
nonempty input, whatever values the cells hold. -/
theorem construct_succeeds (g : List (List ℤ))
    (hrect : ∀ row ∈ g, row.length = g.length)
    (hev : g.length % 2 = 0) (hnz : g ≠ []) :
    construct g = Except.ok ⟨asarrayInt8 g⟩ := by
  obtain ⟨r0, rs, rfl⟩ : ∃ r0 rs, g = r0 :: rs := by
    cases g with
    | nil => exact absurd rfl hnz
    | cons a l => exact ⟨a, l, rfl⟩
  have hr0 : r0.length = (r0 :: rs).length := hrect r0 (by simp)
  have hall : ((r0 :: rs).all fun row => row.length == r0.length) = true := by
    simp only [List.all_eq_true, beq_iff_eq]
    intro row hrow
    rw [hrect row hrow, hr0]
  simp only [construct]
  rw [if_pos hall, if_neg (by omega), if_neg (by simpa using hev),
    if_neg (by simp)]

/-- Helper: what a successful construction guarantees — a nonempty square
grid of even size whose cells all lie in the int8 range. -/
theorem construct_ok_shape (g : List (List ℤ)) (p : BinaryPuzzle)
    (h : construct g = Except.ok p) :
    p.grid ≠ [] ∧ (∀ row ∈ p.grid, row.length = p.grid.length) ∧
    p.grid.length % 2 = 0 ∧
    (∀ row ∈ p.grid, ∀ v ∈ row, -128 ≤ v ∧ v ≤ 127) := by
  cases g with
  | nil => exact Except.noConfusion h
  | cons r0 rs =>
    simp only [construct] at h
    by_cases hall : ((r0 :: rs).all fun row => row.length == r0.length) = true
    case neg => rw [if_neg hall] at h; exact Except.noConfusion h
    rw [if_pos hall] at h
    by_cases hsq : (r0 :: rs).length ≠ r0.length
    case pos => rw [if_pos hsq] at h; exact Except.noConfusion h
    rw [if_neg hsq] at h
    by_cases hodd : (r0 :: rs).length % 2 ≠ 0
    case pos => rw [if_pos hodd] at h; exact Except.noConfusion h
    rw [if_neg hodd, if_neg (by simp)] at h
    injection h with h
    subst h
    simp only [List.all_eq_true, beq_iff_eq] at hall
    push_neg at hsq hodd
    refine ⟨by simp [asarrayInt8], ?_, ?_, ?_⟩
    · intro row hrow
      dsimp only at hrow ⊢
      rw [asarrayInt8, List.mem_map] at hrow
      obtain ⟨r, hr, rfl⟩ := hrow
      simp only [asarrayInt8, List.length_map]
      rw [hall r hr, hsq]
    · simpa [asarrayInt8] using hodd
    · intro row hrow v hv
      dsimp only at hrow
      rw [asarrayInt8, List.mem_map] at hrow
      obtain ⟨r, _, rfl⟩ := hrow
      rw [List.mem_map] at hv
      obtain ⟨w, _, rfl⟩ := hv
      exact toInt8_bounds w

/-- Helper: the int8 conversion fixes a grid whose cells are in range. -/
theorem asarray_fixed (q : List (List ℤ))
    (hb : ∀ row ∈ q, ∀ v ∈ row, -128 ≤ v ∧ v ≤ 127) :
    asarrayInt8 q = q := by
  induction q with
  | nil => rfl
  | cons row rest ih =>
    have hrow : row.map toInt8 = row := by
      have : ∀ v ∈ row, toInt8 v = v := fun v hv =>
        toInt8_fixed (hb row (by simp) v hv).1 (hb row (by simp) v hv).2
      calc row.map toInt8 = row.map id := List.map_congr_left this
        _ = row := List.map_id row
    have hrest := ih (fun r hr => hb r (List.mem_cons_of_mem _ hr))
    simp only [asarrayInt8, List.map_cons] at hrest ⊢
    rw [hrow, hrest]

theorem splitOnChar_linesOut (g : List (List ℤ))
    (h : ∀ row ∈ g, '\n' ∉ toCsvLine row) :
    splitOnChar '\n' (linesOut g) = g.map toCsvLine ++ [[]] := by
  induction g with
  | nil => rfl
  | cons row rest ih =>
    rw [linesOut, splitOnChar_append '\n' _ _ (h row (by simp)),
      ih (fun r hr => h r (List.mem_cons_of_mem _ hr))]
    rfl

/-- Claim C6: `check` is a total boolean function (it never raises), and
`verify` fails exactly when `check` is false; the error carries the
rule-specific message of the first failing rule in the fixed order
binary → parity → triples → uniqueness; on success `verify` returns true. -/
theorem claim_C6 (p : BinaryPuzzle) :
    (p.verify = Except.ok true ↔ p.check = true) ∧
    (∀ e, p.verify = Except.error e → p.check = false) ∧
    (p.check_binary = false →
      p.verify = Except.error "All grid values must be 0 or 1") ∧
    (p.check_binary = true → p.check_parity = false →
      p.verify = Except.error
        "All rows and columns must have equal amount of 0 and 1 (parity)") ∧
    (p.check_binary = true → p.check_parity = true → p.check_triples = false →
      p.verify = Except.error
        "No row and column are allowed to have three times the same number (triples)") ∧
    (p.check_binary = true → p.check_parity = true → p.check_triples = true →
      p.check_uniqueness = false →
      p.verify = Except.error "All rows and columns must be unique") := by
  unfold BinaryPuzzle.verify BinaryPuzzle.check
  cases hb : p.check_binary <;> cases hp : p.check_parity <;>
    cases ht : p.check_triples <;> cases hu : p.check_uniqueness <;>
    simp

/-- Witness for C6 at concrete grids: a grid with a 7 makes `verify` raise
the binary message, and a fully legal 4x4 grid makes `verify` return true. -/
theorem claim_C6_witness :
    (BinaryPuzzle.mk [[7, 1], [0, 1]]).verify =
      Except.error "All grid values must be 0 or 1" ∧
    (BinaryPuzzle.mk [[0, 0, 1, 1], [1, 1, 0, 0], [0, 1, 0, 1], [1, 0, 1, 0]]).verify =
      Except.ok true :=
  ⟨(claim_C6 _).2.2.1 (by decide),
   ((claim_C6 _).1).mpr (by decide)⟩

/-- Counterexample to claim C7 as stated: a 1x1 input fails with the
non-even-size error (`oddSize`), not the minimum-size error, because the
odd-size check runs before the minimum-size check (which only tests N = 0). -/
theorem claim_C7_cex :
    construct [[1]] = Except.error ConstructErr.oddSize ∧
    ConstructErr.oddSize ≠ ConstructErr.minSize :=
  ⟨rfl, by decide⟩

/-- Claim C7 (amended): a 3x3 input fails with the non-even-size error; a
ragged input fails with numpy's inhomogeneous-conversion error raised inside
`np.asarray` (not the dimensionality error, which fires for inputs that are
not nested lists, e.g. the empty list); a 1x1 input fails with the
non-even-size error, since the odd-size check precedes the minimum-size
check and the latter only tests size 0. -/
theorem claim_C7 (a b c d e f g h i : ℤ) :
    construct [[a, b, c], [d, e, f], [g, h, i]] = Except.error ConstructErr.oddSize ∧
    construct [[a, b], [c]] = Except.error ConstructErr.inhomogeneous ∧
    construct [[a]] = Except.error ConstructErr.oddSize ∧
    construct [] = Except.error (ConstructErr.dims 1) := by
  refine ⟨?_, ?_, ?_, rfl⟩ <;> simp [construct]

/-- Claim C10: construction enforces only the shape invariants and never
inspects cell values — every rectangular, square, even-size, nonempty input
constructs successfully, whatever its cell values; a cell value outside
{0, 1, -1} is only detected later, by `check_binary`. -/
theorem claim_C10 (g : List (List ℤ))
    (hrect : ∀ row ∈ g, row.length = g.length)
    (hev : g.length % 2 = 0) (hnz : g ≠ []) :
    construct g = Except.ok ⟨asarrayInt8 g⟩ ∧
    ((∃ row ∈ asarrayInt8 g, ∃ v ∈ row, v ≠ 0 ∧ v ≠ 1) →
      (BinaryPuzzle.mk (asarrayInt8 g)).check_binary = false) := by
  refine ⟨construct_succeeds g hrect hev hnz, ?_⟩
  rintro ⟨row, hrow, v, hv, hv0, hv1⟩
  cases hcb : (BinaryPuzzle.mk (asarrayInt8 g)).check_binary with
  | false => rfl
  | true =>
    exfalso
    unfold BinaryPuzzle.check_binary at hcb
    simp only [List.all_eq_true] at hcb
    have h2 := hcb row hrow v hv
    simp [hv0, hv1] at h2

/-- Witness for C10: a 2x2 grid containing a 7 constructs successfully and
then fails the binary predicate. -/
theorem claim_C10_witness :
    construct [[7, 1], [0, 1]] = Except.ok ⟨asarrayInt8 [[7, 1], [0, 1]]⟩ ∧
    (BinaryPuzzle.mk (asarrayInt8 [[7, 1], [0, 1]])).check_binary = false :=
  ⟨(claim_C10 [[7, 1], [0, 1]] (by decide) (by decide) (by decide)).1,
   (claim_C10 [[7, 1], [0, 1]] (by decide) (by decide) (by decide)).2
     ⟨[7, 1], by decide, 7, by decide, by decide, by decide⟩⟩

theorem mapM_rows_serField (rows : List (List ℤ))
    (hb : ∀ row ∈ rows, ∀ v ∈ row, -128 ≤ v ∧ v ≤ 127) :
    (rows.map (fun row => row.map serField)).mapM
      (fun r => r.mapM parseField) = Except.ok rows := by
  induction rows with
  | nil => rfl
  | cons row rest ih =>
    rw [List.map_cons, List.mapM_cons,
      mapM_parseField_serField row (hb row (by simp)),
      ih (fun r hr => hb r (List.mem_cons_of_mem _ hr))]
    rfl

/-- The field rows read back from a serialized grid are its rows'
serialized fields: comments never fire (no `#` is emitted), no line is
blank, and the comma split inverts the join. -/
theorem csvRows_to_csv (p : BinaryPuzzle) (_hne : p.grid ≠ [])
    (hsq : ∀ row ∈ p.grid, row.length = p.grid.length)
    (hbnd : ∀ row ∈ p.grid, ∀ v ∈ row, -128 ≤ v ∧ v ≤ 127)
    (hN2 : 2 ≤ p.grid.length) :
    csvRows p.to_csv = p.grid.map (fun row => row.map serField) := by
  have hnoNl : ∀ row ∈ p.grid, '\n' ∉ toCsvLine row := fun row hr =>
    no_newline_toCsvLine row (hbnd row hr)
  have hrowne : ∀ row ∈ p.grid, row ≠ [] := by
    intro row hrow hnil
    have hl := hsq row hrow
    rw [hnil] at hl
    simp at hl
    omega
  unfold csvRows BinaryPuzzle.to_csv
  rw [splitOnChar_linesOut _ hnoNl, List.map_append]
  have hmap : (p.grid.map toCsvLine).map stripComment =
      p.grid.map toCsvLine := by
    rw [List.map_map]
    apply List.map_congr_left
    intro row hrow
    simp only [Function.comp_apply]
    exact stripComment_eq_self (no_hash_toCsvLine row (hbnd row hrow))
  have hnilmap : List.map stripComment [([] : List Char)] = [[]] := rfl
  rw [hmap, hnilmap, List.filter_append]
  have h1 : List.filter (fun l => !l.isEmpty) [([] : List Char)] = [] := rfl
  rw [h1, List.append_nil]
  have h2 : (p.grid.map toCsvLine).filter (fun l => !l.isEmpty) =
      p.grid.map toCsvLine := by
    apply List.filter_eq_self.mpr
    intro line hline
    rw [List.mem_map] at hline
    obtain ⟨row, hrow, rfl⟩ := hline
    have hlen : 2 ≤ row.length := by rw [hsq row hrow]; exact hN2
    obtain ⟨x, y, t, rfl⟩ : ∃ x y t, row = x :: y :: t := by
      match row, hlen with
      | x :: y :: t, _ => exact ⟨x, y, t, rfl⟩
    have hjoin : toCsvLine (x :: y :: t) ≠ [] := by
      unfold toCsvLine
      rw [List.map_cons, List.map_cons]
      exact joinWithChar_two_ne_nil ',' _ _ _
    simpa using hjoin
  rw [h2, List.map_map]
  apply List.map_congr_left
  intro row hrow
  simp only [Function.comp_apply]
  exact split_toCsvLine row (hrowne row hrow) (hbnd row hrow)

/-- Claim C8: serialization round-trips — for every constructible grid,
UNKNOWN cells included, deserializing the serialized form yields a
content-equal grid, with UNKNOWN cells preserved exactly. -/
theorem claim_C8 (g : List (List ℤ)) (p : BinaryPuzzle)
    (h : construct g = Except.ok p) :
    from_csv p.to_csv = Except.ok p := by
  obtain ⟨hne, hsq, hev, hbnd⟩ := construct_ok_shape g p h
  have hN2 : 2 ≤ p.grid.length := by
    have h0 : p.grid.length ≠ 0 := fun hl => hne (List.length_eq_zero.mp hl)
    omega
  have hrows := csvRows_to_csv p hne hsq hbnd hN2
  have hcols : ((csvRows p.to_csv).all
      (fun r => r.length == ((csvRows p.to_csv).headD []).length)) = true := by
    rw [hrows]
    obtain ⟨r0, rs, hg⟩ : ∃ r0 rs, p.grid = r0 :: rs := by
      cases hgg : p.grid with
      | nil => exact absurd hgg hne
      | cons a l => exact ⟨a, l, rfl⟩
    rw [hg, List.map_cons]
    simp only [List.headD_cons]
    rw [List.all_eq_true]
    intro r hrm
    rw [List.mem_cons] at hrm
    rcases hrm with rfl | hrm
    · simp
    · rw [List.mem_map] at hrm
      obtain ⟨row, hrow, rfl⟩ := hrm
      rw [beq_iff_eq, List.length_map, List.length_map,
        hsq row (by rw [hg]; exact List.mem_cons_of_mem _ hrow),
        hsq r0 (by rw [hg]; simp)]
  have hcon : construct p.grid = Except.ok p := by
    have hc := construct_succeeds p.grid hsq hev hne
    rwa [asarray_fixed p.grid hbnd] at hc
  unfold from_csv
  rw [if_pos hcols, hrows, mapM_rows_serField p.grid hbnd]
  show (match construct p.grid with
    | Except.ok q => Except.ok q
    | Except.error e => Except.error (CsvErr.shape e)) = Except.ok p
  rw [hcon]

/-- Witness for C8 on a grid with UNKNOWN cells. -/
theorem claim_C8_witness :
    from_csv (BinaryPuzzle.mk [[-1, 0], [1, -1]]).to_csv =
      Except.ok (BinaryPuzzle.mk [[-1, 0], [1, -1]]) :=
  claim_C8 [[-1, 0], [1, -1]] (BinaryPuzzle.mk [[-1, 0], [1, -1]]) (by decide)

theorem mem_allBoolLists {n : ℕ} {l : List Bool} :
    l ∈ allBoolLists n ↔ l.length = n := by
  induction n generalizing l with
  | zero =>
    simp only [allBoolLists, List.mem_singleton, List.length_eq_zero]
  | succ m ih =>
    simp only [allBoolLists, List.mem_flatMap]
    constructor
    · rintro ⟨t, ht, hl⟩
      have htl := (ih).mp ht
      rcases List.mem_cons.mp hl with rfl | hl2
      · simp [htl]
      · rcases List.mem_singleton.mp hl2 with rfl
        simp [htl]
    · intro hlen
      cases l with
      | nil => simp at hlen
      | cons b t =>
        refine ⟨t, ih.mpr (by simpa using hlen), ?_⟩
        cases b <;> simp

theorem allBoolLists_length (n : ℕ) : (allBoolLists n).length = 2 ^ n := by
  induction n with
  | zero => rfl
  | succ m ih =>
    rw [allBoolLists, List.length_flatMap]
    have h2 : List.map (List.length ∘ fun l => [false :: l, true :: l])
        (allBoolLists m) = List.map (fun _ => 2) (allBoolLists m) :=
      List.map_congr_left (fun l _ => rfl)
    rw [h2, List.map_const', List.sum_replicate, ih, smul_eq_mul]
    ring

theorem mem_allAssign {N : ℕ} {a : List Bool} :
    a ∈ allAssign N ↔ a.length = 2 * N * N := mem_allBoolLists

theorem allAssign_pos (N : ℕ) : 1 ≤ (allAssign N).length := by
  rw [allAssign, allBoolLists_length]
  exact Nat.one_le_two_pow

theorem idx_lt {N r c v : ℕ} (hr : r < N) (hc : c < N) (hv : v < 2) :
    idx N r c v < 2 * N * N := by
  have hassoc : 2 * N * N = 2 * (N * N) := Nat.mul_assoc 2 N N
  have h1 : (r + 1) * N ≤ N * N := Nat.mul_le_mul_right N hr
  have h2 : r * N + c < (r + 1) * N := by
    rw [Nat.succ_mul]
    omega
  unfold idx
  omega

theorem idx_div2 (N r c v : ℕ) (hv : v < 2) :
    idx N r c v / 2 = r * N + c ∧ idx N r c v % 2 = v := by
  unfold idx
  omega

theorem rc_decomp (r : ℕ) {N c : ℕ} (hN : 0 < N) (hc : c < N) :
    (r * N + c) / N = r ∧ (r * N + c) % N = c := by
  constructor
  · rw [Nat.mul_comm r N, Nat.mul_add_div hN, Nat.div_eq_of_lt hc]
    omega
  · rw [Nat.mul_comm r N, Nat.mul_add_mod, Nat.mod_eq_of_lt hc]


theorem idx_inj {N r c v r' c' v' : ℕ} (hr : r < N) (hc : c < N) (hv : v < 2)
    (_hr' : r' < N) (hc' : c' < N) (hv' : v' < 2)
    (h : idx N r c v = idx N r' c' v') : r = r' ∧ c = c' ∧ v = v' := by
  have hN : 0 < N := lt_of_le_of_lt (Nat.zero_le r) hr
  have h1 := idx_div2 N r c v hv
  have h2 := idx_div2 N r' c' v' hv'
  have hdiv : r * N + c = r' * N + c' := by
    rw [← h1.1, ← h2.1, h]
  have hmod : v = v' := by rw [← h1.2, ← h2.2, h]
  have hr2 := rc_decomp r hN hc
  have hr2' := rc_decomp r' hN hc'
  refine ⟨?_, ?_, hmod⟩
  · rw [← hr2.1, ← hr2'.1, hdiv]
  · rw [← hr2.2, ← hr2'.2, hdiv]

theorem idx_decomp {N i : ℕ} (hi : i < 2 * N * N) :
    ∃ r, r < N ∧ ∃ c, c < N ∧ ∃ v, v < 2 ∧ idx N r c v = i := by
  have hassoc : 2 * N * N = 2 * (N * N) := Nat.mul_assoc 2 N N
  have hN : 0 < N := by
    rcases Nat.eq_zero_or_pos N with h | h
    · subst h; omega
    · exact h
  have h2 : i / 2 < N * N := by omega
  refine ⟨i / 2 / N, (Nat.div_lt_iff_lt_mul hN).mpr (by omega),
    i / 2 % N, Nat.mod_lt _ hN, i % 2, Nat.mod_lt _ (by omega), ?_⟩
  unfold idx
  have h3 := Nat.div_add_mod (i / 2) N
  have h4 := Nat.div_add_mod i 2
  have hcomm : i / 2 / N * N = N * (i / 2 / N) := Nat.mul_comm _ _
  omega

theorem getD_map_range {α : Type} (f : ℕ → α) (L i : ℕ) (hi : i < L) (d : α) :
    ((List.range L).map f).getD i d = f i := by
  rw [List.getD_eq_getElem?_getD, List.getElem?_map, List.getElem?_range hi]
  rfl

/-! ### Evaluations of the model constraints -/

theorem extractCell_eq (a : List Bool) (N r c : ℕ) :
    extractCell a N r c = ind a (idx N r c 1) := by
  unfold extractCell ind
  cases h1 : a.getD (idx N r c 1) false <;>
    cases h0 : a.getD (idx N r c 0) false <;> simp

theorem satisfies_eq_iff {a : List Bool} {c : Constr} (h : c.isLe = false) :
    satisfies a c = true ↔ evalSum a c = c.rhs := by
  unfold satisfies
  rw [h]
  simp

theorem satisfies_le_iff {a : List Bool} {c : Constr} (h : c.isLe = true) :
    satisfies a c = true ↔ evalSum a c ≤ c.rhs := by
  unfold satisfies
  rw [h]
  simp

theorem evalSum_rowParity (a : List Bool) (N r v : ℕ) :
    evalSum a (rowParityConstr N r v) =
      ((List.range N).map (fun c => ind a (idx N r c v))).sum := by
  unfold evalSum rowParityConstr
  rw [List.map_map]
  rfl

theorem evalSum_colParity (a : List Bool) (N c v : ℕ) :
    evalSum a (colParityConstr N c v) =
      ((List.range N).map (fun r => ind a (idx N r c v))).sum := by
  unfold evalSum colParityConstr
  rw [List.map_map]
  rfl

theorem evalSum_cellExcl (a : List Bool) (N r c : ℕ) :
    evalSum a (cellExclConstr N r c) =
      ind a (idx N r c 0) + ind a (idx N r c 1) := by
  unfold evalSum cellExclConstr
  simp [evalTerm, ind]

theorem evalSum_rowTriple (a : List Bool) (N t r v : ℕ) :
    evalSum a (rowTripleConstr N t r v) =
      ind a (idx N r t v) + ind a (idx N r (1 + t) v) +
        ind a (idx N r (2 + t) v) := by
  unfold evalSum rowTripleConstr
  simp [List.range_succ, evalTerm, ind]
  ring

theorem evalSum_colTriple (a : List Bool) (N t c v : ℕ) :
    evalSum a (colTripleConstr N t c v) =
      ind a (idx N t c v) + ind a (idx N (1 + t) c v) +
        ind a (idx N (2 + t) c v) := by
  unfold evalSum colTripleConstr
  simp [List.range_succ, evalTerm, ind]
  ring

theorem evalSum_clue (a : List Bool) (N r c : ℕ) (val : ℤ) :
    evalSum a (clueConstr N r c val) = ind a (idx N r c 1) := by
  unfold evalSum clueConstr
  simp [evalTerm, ind]

/-! ### Membership of the model's constraints and the solver contract -/

theorem satAll_mem {prob : List Constr} {a : List Bool} {c : Constr}
    (h : satAll prob a = true) (hc : c ∈ prob) : satisfies a c = true := by
  unfold satAll at h
  exact List.all_eq_true.mp h c hc

theorem satAll_append {prob1 prob2 : List Constr} {a : List Bool} :
    satAll (prob1 ++ prob2) a = (satAll prob1 a && satAll prob2 a) := by
  unfold satAll
  exact List.all_append

theorem cellExcl_mem_buildModel {p : BinaryPuzzle} {r c : ℕ}
    (hr : r < p.N) (hc : c < p.N) :
    cellExclConstr p.N r c ∈ buildModel p := by
  unfold buildModel
  simp only [List.mem_append, List.mem_flatMap, List.mem_map, List.mem_range]
  exact Or.inl (Or.inl (Or.inl (Or.inl ⟨r, hr, c, hc, rfl⟩)))

theorem rowParity_mem_buildModel {p : BinaryPuzzle} {r v : ℕ}
    (hr : r < p.N) (hv : v ∈ ([0, 1] : List ℕ)) :
    rowParityConstr p.N r v ∈ buildModel p := by
  unfold buildModel
  simp only [List.mem_append, List.mem_flatMap, List.mem_map, List.mem_range]
  exact Or.inl (Or.inl (Or.inl (Or.inr ⟨r, hr, v, hv, rfl⟩)))

theorem colParity_mem_buildModel {p : BinaryPuzzle} {c v : ℕ}
    (hc : c < p.N) (hv : v ∈ ([0, 1] : List ℕ)) :
    colParityConstr p.N c v ∈ buildModel p := by
  unfold buildModel
  simp only [List.mem_append, List.mem_flatMap, List.mem_map, List.mem_range]
  exact Or.inl (Or.inl (Or.inr ⟨c, hc, v, hv, rfl⟩))

theorem rowTriple_mem_buildModel {p : BinaryPuzzle} {t r v : ℕ}
    (ht : t < p.N - 2) (hr : r < p.N) (hv : v ∈ ([0, 1] : List ℕ)) :
    rowTripleConstr p.N t r v ∈ buildModel p := by
  unfold buildModel
  simp only [List.mem_append, List.mem_flatMap, List.mem_map, List.mem_range]
  exact Or.inl (Or.inr ⟨t, ht, v, hv, Or.inl ⟨r, hr, rfl⟩⟩)

theorem colTriple_mem_buildModel {p : BinaryPuzzle} {t c v : ℕ}
    (ht : t < p.N - 2) (hc : c < p.N) (hv : v ∈ ([0, 1] : List ℕ)) :
    colTripleConstr p.N t c v ∈ buildModel p := by
  unfold buildModel
  simp only [List.mem_append, List.mem_flatMap, List.mem_map, List.mem_range]
  exact Or.inl (Or.inr ⟨t, ht, v, hv, Or.inr ⟨c, hc, rfl⟩⟩)

theorem clue_mem_buildModel {p : BinaryPuzzle} {r c : ℕ}
    (hr : r < p.N) (hc : c < p.N) (hclue : p.cellAt r c ≠ -1) :
    clueConstr p.N r c (p.cellAt r c) ∈ buildModel p := by
  unfold buildModel
  simp only [List.mem_append, List.mem_flatMap, List.mem_filterMap,
    List.mem_range]
  exact Or.inr ⟨r, hr, c, hc, by rw [if_pos hclue]⟩

theorem bruteOracle_ok (N : ℕ) : OracleOk N (bruteOracle N) := by
  intro prob
  unfold bruteOracle
  cases h : (allAssign N).find? (satAll prob) with
  | some a =>
    exact ⟨List.mem_of_find?_eq_some h, List.find?_some h⟩
  | none =>
    intro a ha
    have := List.find?_eq_none.mp h a ha
    simpa using this

/-! ### Counting true variables and the exclusion constraint -/

theorem length_filter_flatMap {α β : Type} (l : List α) (f : α → List β)
    (q : β → Bool) :
    ((l.flatMap f).filter q).length =
      (l.map (fun x => ((f x).filter q).length)).sum := by
  induction l with
  | nil => rfl
  | cons x t ih =>
    rw [List.flatMap_cons, List.filter_append, List.length_append, ih,
      List.map_cons, List.sum_cons]

theorem evalSum_one_terms (b : List Bool) (S : List ℕ) (le : Bool) (rhs : ℤ) :
    evalSum b ⟨S.map (fun i => ((1 : ℤ), i)), le, rhs⟩ =
      ((S.filter (fun i => b.getD i false)).length : ℤ) := by
  induction S with
  | nil => rfl
  | cons i t ih =>
    have h1 : evalSum b ⟨(i :: t).map (fun j => ((1 : ℤ), j)), le, rhs⟩ =
        (if b.getD i false then (1 : ℤ) else 0) +
          evalSum b ⟨t.map (fun j => ((1 : ℤ), j)), le, rhs⟩ := by
      unfold evalSum evalTerm
      rw [List.map_cons, List.map_cons, List.sum_cons]
    rw [h1, ih]
    cases hb : b.getD i false
    · rw [@List.filter_cons_of_neg ℕ (fun j => b.getD j false) i t
        (show ¬b.getD i false = true by rw [hb]; simp)]
      simp
    · rw [@List.filter_cons_of_pos ℕ (fun j => b.getD j false) i t hb,
        List.length_cons]
      set L := (List.filter (fun j => b.getD j false) t).length with hL
      simp [Nat.add_comm]

/-- Under the cell-exclusivity constraints, exactly N² of the 2N² decision
variables are true. -/
theorem trueCount_eq {N : ℕ} {a : List Bool}
    (hexcl : ∀ r, r < N → ∀ c, c < N →
      satisfies a (cellExclConstr N r c) = true) :
    ((allVars N).filter (fun i => a.getD i false)).length = N * N := by
  unfold allVars
  rw [length_filter_flatMap]
  have hin : ∀ r ∈ List.range N,
      ((((List.range N).flatMap fun c => [idx N r c 0, idx N r c 1]).filter
        (fun i => a.getD i false)).length) = N := by
    intro r hrm
    rw [length_filter_flatMap]
    have hcell : ∀ c ∈ List.range N,
        (([idx N r c 0, idx N r c 1].filter
          (fun i => a.getD i false)).length) = 1 := by
      intro c hcm
      have hs := hexcl r (List.mem_range.mp hrm) c (List.mem_range.mp hcm)
      rw [satisfies_eq_iff rfl, evalSum_cellExcl] at hs
      have hrhs : (cellExclConstr N r c).rhs = 1 := rfl
      rw [hrhs] at hs
      unfold ind at hs
      simp only [List.filter_cons, List.filter_nil]
      cases h0 : a.getD (idx N r c 0) false <;>
        cases h1 : a.getD (idx N r c 1) false <;>
        rw [h0, h1] at hs <;> simp_all
    rw [List.map_congr_left hcell, List.map_const', List.sum_replicate,
      List.length_range, smul_eq_mul, Nat.mul_one]
  rw [List.map_congr_left hin, List.map_const', List.sum_replicate,
    List.length_range, smul_eq_mul]

/-- The just-returned assignment violates its own exclusion constraint. -/
theorem self_excl_false {N : ℕ} {a : List Bool}
    (hexcl : ∀ r, r < N → ∀ c, c < N →
      satisfies a (cellExclConstr N r c) = true) :
    satisfies a (exclusionConstr N a) = false := by
  have hsum : evalSum a (exclusionConstr N a) = ((N : ℤ) * N) := by
    unfold exclusionConstr
    rw [evalSum_one_terms, List.filter_filter]
    have hff : ((allVars N).filter
        (fun i => a.getD i false && a.getD i false)).length =
        ((allVars N).filter (fun i => a.getD i false)).length := by
      congr 1
      apply List.filter_congr
      intro i _
      cases h : a.getD i false <;> simp
    rw [hff, trueCount_eq hexcl]
    push_cast
    ring
  unfold satisfies
  have hle : (exclusionConstr N a).isLe = true := rfl
  have hrhs : (exclusionConstr N a).rhs = (N : ℤ) ^ 2 - 1 := rfl
  rw [hle, if_pos rfl, hsum, hrhs]
  simp only [decide_eq_false_iff_not, not_le]
  have h2 : ((N : ℤ)) ^ 2 = (N : ℤ) * N := by ring
  rw [h2]
  omega

/-! ### Injectivity of extraction and the decreasing loop measure -/

theorem extract_grid_cell {a : List Bool} {N r c : ℕ} (hr : r < N)
    (hc : c < N) :
    ((extract a N).grid.getD r []).getD c 0 = extractCell a N r c := by
  unfold extract
  dsimp only
  rw [getD_map_range _ N r hr, getD_map_range _ N c hc]

theorem excl_pair {a : List Bool} {N r c : ℕ}
    (hs : satisfies a (cellExclConstr N r c) = true) :
    a.getD (idx N r c 0) false = !a.getD (idx N r c 1) false := by
  rw [satisfies_eq_iff rfl, evalSum_cellExcl] at hs
  have hrhs : (cellExclConstr N r c).rhs = 1 := rfl
  rw [hrhs] at hs
  unfold ind at hs
  cases h0 : a.getD (idx N r c 0) false <;>
    cases h1 : a.getD (idx N r c 1) false <;>
    rw [h0, h1] at hs <;> simp_all

theorem extract_inj {N : ℕ} {a b : List Bool}
    (ha : a ∈ allAssign N) (hb : b ∈ allAssign N)
    (hea : ∀ r, r < N → ∀ c, c < N →
      satisfies a (cellExclConstr N r c) = true)
    (heb : ∀ r, r < N → ∀ c, c < N →
      satisfies b (cellExclConstr N r c) = true)
    (heq : extract a N = extract b N) : a = b := by
  have hla : a.length = 2 * N * N := mem_allAssign.mp ha
  have hlb : b.length = 2 * N * N := mem_allAssign.mp hb
  apply List.ext_getElem (by rw [hla, hlb])
  intro i hia hib
  obtain ⟨r, hr, c, hc, v, hv, rfl⟩ := idx_decomp (hla ▸ hia)
  have hcell : extractCell a N r c = extractCell b N r c := by
    have h2 := congrArg (fun q => (q.grid.getD r []).getD c 0) heq
    dsimp only at h2
    rwa [extract_grid_cell hr hc, extract_grid_cell hr hc] at h2
  rw [extractCell_eq, extractCell_eq] at hcell
  unfold ind at hcell
  have h1 : a.getD (idx N r c 1) false = b.getD (idx N r c 1) false := by
    cases ha1 : a.getD (idx N r c 1) false <;>
      cases hb1 : b.getD (idx N r c 1) false <;>
      rw [ha1, hb1] at hcell <;> simp_all
  have hgd : a.getD (idx N r c v) false = b.getD (idx N r c v) false := by
    interval_cases v
    · rw [excl_pair (hea r hr c hc), excl_pair (heb r hr c hc), h1]
    · exact h1
  rw [List.getD_eq_getElem a false hia, List.getD_eq_getElem b false hib]
    at hgd
  exact hgd

theorem length_filter_mono {α : Type} (l : List α) (p q : α → Bool)
    (himp : ∀ x, q x = true → p x = true) :
    (l.filter q).length ≤ (l.filter p).length := by
  induction l with
  | nil => exact le_refl _
  | cons y t ih =>
    cases hq : q y
    · cases hp : p y
      · rw [List.filter_cons_of_neg (by simp [hq]),
          List.filter_cons_of_neg (by simp [hp])]
        exact ih
      · rw [List.filter_cons_of_neg (by simp [hq]),
          List.filter_cons_of_pos hp, List.length_cons]
        exact Nat.le_succ_of_le ih
    · have hp := himp y hq
      rw [List.filter_cons_of_pos hq, List.filter_cons_of_pos hp,
        List.length_cons, List.length_cons]
      exact Nat.succ_le_succ ih

theorem length_filter_lt {α : Type} (l : List α) (p q : α → Bool)
    (himp : ∀ x, q x = true → p x = true) (x : α) (hx : x ∈ l)
    (hpx : p x = true) (hqx : q x = false) :
    (l.filter q).length < (l.filter p).length := by
  induction l with
  | nil => cases hx
  | cons y t ih =>
    rcases List.mem_cons.mp hx with rfl | hxt
    · rw [List.filter_cons_of_pos hpx,
        List.filter_cons_of_neg (by simp [hqx]), List.length_cons]
      exact Nat.lt_succ_of_le (length_filter_mono t p q himp)
    · cases hq : q y
      · cases hp : p y
        · rw [List.filter_cons_of_neg (by simp [hq]),
            List.filter_cons_of_neg (by simp [hp])]
          exact ih hxt
        · rw [List.filter_cons_of_neg (by simp [hq]),
            List.filter_cons_of_pos hp, List.length_cons]
          exact Nat.lt_succ_of_lt (ih hxt)
      · have hp := himp y hq
        rw [List.filter_cons_of_pos hq, List.filter_cons_of_pos hp,
          List.length_cons, List.length_cons]
        exact Nat.succ_lt_succ (ih hxt)

/-- Appending the exclusion constraint for a satisfying assignment strictly
decreases the number of satisfying assignments: forward progress. -/
theorem satCount_progress {N : ℕ} {prob : List Constr} {a : List Bool}
    (ha : a ∈ allAssign N) (hsat : satAll prob a = true)
    (hexcl : ∀ r, r < N → ∀ c, c < N → cellExclConstr N r c ∈ prob) :
    satCount N (prob ++ [exclusionConstr N a]) < satCount N prob := by
  unfold satCount
  apply length_filter_lt _ _ _ ?_ a ha hsat ?_
  · intro x hx
    rw [satAll_append, Bool.and_eq_true] at hx
    exact hx.1
  · rw [satAll_append, hsat, Bool.true_and]
    have hself :=
      self_excl_false (fun r hr c hc => satAll_mem hsat (hexcl r hr c hc))
    unfold satAll
    simp [hself]

theorem solveLoop_no_fuel_out {N : ℕ}
    {oracle : List Constr → Option (List Bool)} (hok : OracleOk N oracle) :
    ∀ fuel prob, satCount N prob < fuel →
      (∀ r, r < N → ∀ c, c < N → cellExclConstr N r c ∈ prob) →
      solveLoop N oracle fuel prob ≠ none := by
  intro fuel
  induction fuel with
  | zero => intro prob h _; omega
  | succ m ih =>
    intro prob hcount hexcl
    rw [solveLoop]
    cases ho : oracle prob with
    | none => simp
    | some a =>
      have hc := hok prob
      rw [ho] at hc
      obtain ⟨hamem, hasat⟩ := hc
      dsimp only
      by_cases hchk : (extract a N).check = true
      · simp [hchk]
      · rw [if_neg (by simpa using hchk)]
        apply ih
        · exact lt_of_lt_of_le (satCount_progress hamem hasat hexcl)
            (Nat.lt_succ_iff.mp hcount)
        · intro r hr c hc2
          exact List.mem_append_left _ (hexcl r hr c hc2)

theorem solveAllLoop_no_fuel_out {N : ℕ}
    {oracle : List Constr → Option (List Bool)} (hok : OracleOk N oracle) :
    ∀ fuel prob acc, satCount N prob < fuel →
      (∀ r, r < N → ∀ c, c < N → cellExclConstr N r c ∈ prob) →
      solveAllLoop N oracle fuel prob acc ≠ none := by
  intro fuel
  induction fuel with
  | zero => intro prob acc h _; omega
  | succ m ih =>
    intro prob acc hcount hexcl
    rw [solveAllLoop]
    cases ho : oracle prob with
    | none => simp
    | some a =>
      have hc := hok prob
      rw [ho] at hc
      obtain ⟨hamem, hasat⟩ := hc
      dsimp only
      apply ih
      · exact lt_of_lt_of_le (satCount_progress hamem hasat hexcl)
          (Nat.lt_succ_iff.mp hcount)
      · intro r hr c hc2
        exact List.mem_append_left _ (hexcl r hr c hc2)

theorem satCount_lt_bigFuel (N : ℕ) (prob : List Constr) :
    satCount N prob < bigFuel N := by
  unfold satCount bigFuel
  have := List.length_filter_le (satAll prob) (allAssign N)
  omega

theorem puzzle_ext {s t : BinaryPuzzle} (h : s.grid = t.grid) : s = t := by
  cases s
  cases t
  cases h
  rfl

/-- Claim C4: for every input grid and every solver behaviour consistent
with the contract, the enumeration loops of `solve` and `solve_all`
terminate — run with fuel exceeding the finite assignment space they never
exhaust it, because each appended exclusion constraint eliminates at least
the just-returned assignment. -/
theorem claim_C4 (p : BinaryPuzzle)
    (oracle : List Constr → Option (List Bool)) (hok : OracleOk p.N oracle) :
    (∃ r, solve oracle p = some r) ∧ (∃ l, solve_all oracle p = some l) := by
  have h1 := solveLoop_no_fuel_out hok (bigFuel p.N) (buildModel p)
    (satCount_lt_bigFuel p.N _)
    (fun r hr c hc => cellExcl_mem_buildModel hr hc)
  have h2 := solveAllLoop_no_fuel_out hok (bigFuel p.N) (buildModel p) []
    (satCount_lt_bigFuel p.N _)
    (fun r hr c hc => cellExcl_mem_buildModel hr hc)
  unfold solve solve_all
  constructor
  · cases hs : solveLoop p.N oracle (bigFuel p.N) (buildModel p) with
    | none => exact absurd hs h1
    | some r => exact ⟨r, rfl⟩
  · cases hs : solveAllLoop p.N oracle (bigFuel p.N) (buildModel p) [] with
    | none => exact absurd hs h2
    | some l => exact ⟨l, rfl⟩

/-- Witness for C4: both loops terminate on the all-UNKNOWN 2x2 grid under
the brute-force solver. -/
theorem claim_C4_witness :
    (∃ r, solve (bruteOracle 2) (BinaryPuzzle.mk [[-1, -1], [-1, -1]]) =
      some r) ∧
    (∃ l, solve_all (bruteOracle 2) (BinaryPuzzle.mk [[-1, -1], [-1, -1]]) =
      some l) :=
  claim_C4 (BinaryPuzzle.mk [[-1, -1], [-1, -1]]) (bruteOracle 2)
    (bruteOracle_ok 2)

/-- Claim C5: when no assignment satisfies the model (e.g. contradictory
clues), `solve` returns the explicit no-solution value None and `solve_all`
returns the empty list.  In the embedding both are total functions into
`Option`/`List`: absence of a solution is signalled by the return value,
never by an exception. -/
theorem claim_C5 (p : BinaryPuzzle)
    (oracle : List Constr → Option (List Bool)) (hok : OracleOk p.N oracle)
    (hinf : ∀ a ∈ allAssign p.N, satAll (buildModel p) a = false) :
    solve oracle p = some none ∧ solve_all oracle p = some [] := by
  have hora : oracle (buildModel p) = none := by
    cases ho : oracle (buildModel p) with
    | none => rfl
    | some a =>
      have hc := hok (buildModel p)
      rw [ho] at hc
      exact absurd hc.2 (by rw [hinf a hc.1]; simp)
  constructor
  · unfold solve bigFuel
    rw [solveLoop, hora]
  · unfold solve_all bigFuel
    rw [solveAllLoop, hora]

/-- Witness for C5: a 2x2 grid whose first row is clued 1,1 contradicts row
parity; the brute-force solver reports infeasible, `solve` returns None and
`solve_all` returns the empty list. -/
theorem claim_C5_witness :
    solve (bruteOracle 2) (BinaryPuzzle.mk [[1, 1], [-1, -1]]) = some none ∧
    solve_all (bruteOracle 2) (BinaryPuzzle.mk [[1, 1], [-1, -1]]) =
      some [] :=
  claim_C5 (BinaryPuzzle.mk [[1, 1], [-1, -1]]) (bruteOracle 2)
    (bruteOracle_ok 2) (by decide)

/-- Loop invariant of `solve_all`: accumulated solutions all pass `check`,
are pairwise content-distinct, and no assignment still satisfying the
(growing) system extracts to an already-accumulated solution. -/
theorem solveAllLoop_inv {N : ℕ}
    {oracle : List Constr → Option (List Bool)} (hok : OracleOk N oracle) :
    ∀ fuel prob acc out,
      (∀ r, r < N → ∀ c, c < N → cellExclConstr N r c ∈ prob) →
      (∀ s ∈ acc, s.check = true) →
      acc.Pairwise (fun s t => s.grid ≠ t.grid) →
      (∀ a ∈ allAssign N, satAll prob a = true → extract a N ∉ acc) →
      solveAllLoop N oracle fuel prob acc = some out →
      out.Pairwise (fun s t => s.grid ≠ t.grid) ∧
        ∀ s ∈ out, s.check = true := by
  intro fuel
  induction fuel with
  | zero =>
    intro prob acc out _ _ _ _ h
    exact Option.noConfusion h
  | succ m ih =>
    intro prob acc out hexcl hchk hnd hfresh hrun
    rw [solveAllLoop] at hrun
    cases ho : oracle prob with
    | none =>
      rw [ho] at hrun
      dsimp only at hrun
      injection hrun with h
      subst h
      exact ⟨hnd, hchk⟩
    | some a =>
      rw [ho] at hrun
      dsimp only at hrun
      have hc := hok prob
      rw [ho] at hc
      obtain ⟨hamem, hasat⟩ := hc
      have hexcl' : ∀ r, r < N → ∀ c, c < N →
          cellExclConstr N r c ∈ prob ++ [exclusionConstr N a] :=
        fun r hr c hc2 => List.mem_append_left _ (hexcl r hr c hc2)
      have hcells_a : ∀ r, r < N → ∀ c, c < N →
          satisfies a (cellExclConstr N r c) = true :=
        fun r hr c hc2 => satAll_mem hasat (hexcl r hr c hc2)
      have hprob_of : ∀ b : List Bool,
          satAll (prob ++ [exclusionConstr N a]) b = true →
          satAll prob b = true := by
        intro b hb
        rw [satAll_append, Bool.and_eq_true] at hb
        exact hb.1
      have hkey : ∀ b ∈ allAssign N,
          satAll (prob ++ [exclusionConstr N a]) b = true →
          extract b N ∉ acc ++ [extract a N] := by
        intro b hbmem hbsat hmem
        rcases List.mem_append.mp hmem with hin | hin
        · exact hfresh b hbmem (hprob_of b hbsat) hin
        · have hEq : extract b N = extract a N := List.mem_singleton.mp hin
          have hbexcl2 : satisfies b (exclusionConstr N a) = true := by
            rw [satAll_append, Bool.and_eq_true] at hbsat
            have h3 := hbsat.2
            unfold satAll at h3
            simpa using h3
          have hcells_b : ∀ r, r < N → ∀ c, c < N →
              satisfies b (cellExclConstr N r c) = true :=
            fun r hr c hc2 =>
              satAll_mem (hprob_of b hbsat) (hexcl r hr c hc2)
          have hba : b = a :=
            extract_inj hbmem hamem hcells_b hcells_a hEq
          rw [hba, self_excl_false hcells_a] at hbexcl2
          exact Bool.noConfusion hbexcl2
      by_cases hchk2 : (extract a N).check = true
      · rw [if_pos hchk2] at hrun
        apply ih _ _ _ hexcl' ?_ ?_ hkey hrun
        · intro s hs
          rcases List.mem_append.mp hs with h | h
          · exact hchk s h
          · rw [List.mem_singleton.mp h]
            exact hchk2
        · rw [List.pairwise_append]
          refine ⟨hnd, List.pairwise_singleton _ _, ?_⟩
          intro s hs t ht
          rw [List.mem_singleton.mp ht]
          intro hgg
          exact hfresh a hamem hasat (puzzle_ext hgg ▸ hs)
      · rw [if_neg (by simpa using hchk2)] at hrun
        exact ih _ _ _ hexcl' hchk hnd
          (fun b hb hsb => hfresh b hb (hprob_of b hsb)) hrun

/-- Claim C1: for every input grid and contract-abiding solver, `solve_all`
returns a list with no two content-equal grids, every member of which
passes the composite legality `check`. -/
theorem claim_C1 (p : BinaryPuzzle)
    (oracle : List Constr → Option (List Bool)) (hok : OracleOk p.N oracle) :
    ∃ out, solve_all oracle p = some out ∧
      out.Pairwise (fun s t => s.grid ≠ t.grid) ∧
      ∀ s ∈ out, s.check = true := by
  have hterm := solveAllLoop_no_fuel_out hok (bigFuel p.N) (buildModel p) []
    (satCount_lt_bigFuel p.N _)
    (fun r hr c hc => cellExcl_mem_buildModel hr hc)
  unfold solve_all
  cases hs : solveAllLoop p.N oracle (bigFuel p.N) (buildModel p) [] with
  | none => exact absurd hs hterm
  | some out =>
    refine ⟨out, rfl, ?_⟩
    exact solveAllLoop_inv hok (bigFuel p.N) (buildModel p) [] out
      (fun r hr c hc => cellExcl_mem_buildModel hr hc)
      (by simp) List.Pairwise.nil (by simp) hs

/-- Witness for C1 on the all-UNKNOWN 2x2 grid with the brute-force
solver. -/
theorem claim_C1_witness :
    ∃ out, solve_all (bruteOracle 2) (BinaryPuzzle.mk [[-1, -1], [-1, -1]]) =
      some out ∧
      out.Pairwise (fun s t => s.grid ≠ t.grid) ∧
      ∀ s ∈ out, s.check = true :=
  claim_C1 (BinaryPuzzle.mk [[-1, -1], [-1, -1]]) (bruteOracle 2)
    (bruteOracle_ok 2)

/-! ### What a satisfying assignment guarantees about the extracted grid -/

theorem extract_N (a : List Bool) (N : ℕ) : (extract a N).N = N := by
  unfold extract BinaryPuzzle.N
  simp

theorem extract_grid_length (a : List Bool) (N : ℕ) :
    (extract a N).grid.length = N := by
  unfold extract
  simp

theorem ind_zero_eq {a : List Bool} {N r c : ℕ}
    (hs : satisfies a (cellExclConstr N r c) = true) :
    ind a (idx N r c 0) = 1 - ind a (idx N r c 1) := by
  have hp := excl_pair hs
  unfold ind
  rw [hp]
  cases a.getD (idx N r c 1) false <;> simp

theorem extract_binary (a : List Bool) (N : ℕ) :
    (extract a N).check_binary = true := by
  unfold BinaryPuzzle.check_binary extract
  dsimp only
  rw [List.all_eq_true]
  intro row hrow
  rw [List.mem_map] at hrow
  obtain ⟨r, _, rfl⟩ := hrow
  rw [List.all_eq_true]
  intro v hv
  rw [List.mem_map] at hv
  obtain ⟨c, _, rfl⟩ := hv
  unfold extractCell
  cases h1 : a.getD (idx N r c 1) false <;>
    cases h0 : a.getD (idx N r c 0) false <;> simp

theorem extract_row_sum (a : List Bool) (N r : ℕ) :
    ((List.range N).map (fun c => extractCell a N r c)).sum =
      evalSum a (rowParityConstr N r 1) := by
  rw [evalSum_rowParity]
  congr 1
  apply List.map_congr_left
  intro c _
  exact extractCell_eq a N r c

theorem extract_col_eq (a : List Bool) (N c : ℕ) (hc : c < N) :
    (extract a N).grid.map (fun row => row.getD c 0) =
      (List.range N).map (fun r => extractCell a N r c) := by
  unfold extract
  dsimp only
  rw [List.map_map]
  apply List.map_congr_left
  intro r _
  simp only [Function.comp_apply]
  rw [getD_map_range _ N c hc]

theorem extract_col_sum (a : List Bool) (N c : ℕ) (hc : c < N) :
    ((extract a N).grid.map (fun row => row.getD c 0)).sum =
      evalSum a (colParityConstr N c 1) := by
  rw [extract_col_eq a N c hc, evalSum_colParity]
  congr 1
  apply List.map_congr_left
  intro r _
  exact extractCell_eq a N r c

theorem extract_parity {p : BinaryPuzzle} {a : List Bool}
    (hsat : satAll (buildModel p) a = true) :
    (extract a p.N).check_parity = true := by
  unfold BinaryPuzzle.check_parity
  rw [Bool.and_eq_true]
  constructor
  · unfold transposeSq
    rw [extract_grid_length]
    simp only [List.all_eq_true, List.mem_map, List.mem_range]
    rintro col ⟨c, hc, rfl⟩
    rw [beq_iff_eq, extract_N, extract_col_sum a p.N c hc]
    have hs := satAll_mem hsat
      (colParity_mem_buildModel hc (show (1 : ℕ) ∈ [0, 1] by simp))
    rw [satisfies_eq_iff rfl] at hs
    exact hs
  · simp only [List.all_eq_true]
    intro row hrow
    unfold extract at hrow
    dsimp only at hrow
    rw [List.mem_map] at hrow
    obtain ⟨r, hrm, rfl⟩ := hrow
    rw [List.mem_range] at hrm
    rw [beq_iff_eq, extract_N, extract_row_sum]
    have hs := satAll_mem hsat
      (rowParity_mem_buildModel hrm (show (1 : ℕ) ∈ [0, 1] by simp))
    rw [satisfies_eq_iff rfl] at hs
    exact hs

theorem range_window {N i : ℕ} (h : i + 3 ≤ N) :
    ((List.range N).drop i).take 3 = [i, i + 1, i + 2] := by
  have hlen : (((List.range N).drop i).take 3).length = 3 := by
    rw [List.length_take, List.length_drop, List.length_range]
    omega
  apply List.ext_getElem (by rw [hlen]; rfl)
  intro j hj1 hj2
  rw [hlen] at hj1
  rw [List.getElem_take, List.getElem_drop, List.getElem_range]
  interval_cases j <;> simp

theorem extract_row_window {a : List Bool} {N r i : ℕ} (h3 : i + 3 ≤ N) :
    ((((List.range N).map (fun c => extractCell a N r c)).drop i).take 3).sum
      = ind a (idx N r i 1) + ind a (idx N r (i + 1) 1) +
        ind a (idx N r (i + 2) 1) := by
  rw [← List.map_drop, ← List.map_take, range_window h3]
  simp only [List.map_cons, List.map_nil, List.sum_cons, List.sum_nil,
    extractCell_eq]
  ring

theorem map_range_window {f : ℕ → ℤ} {N i : ℕ} (h3 : i + 3 ≤ N) :
    ((((List.range N).map f).drop i).take 3).sum =
      f i + f (i + 1) + f (i + 2) := by
  rw [← List.map_drop, ← List.map_take, range_window h3]
  simp only [List.map_cons, List.map_nil, List.sum_cons, List.sum_nil]
  ring

theorem rowTriple_bounds {p : BinaryPuzzle} {a : List Bool}
    (hsat : satAll (buildModel p) a = true)
    {t : ℕ} (ht : t < p.N - 2) {r : ℕ} (hr : r < p.N) :
    1 ≤ ind a (idx p.N r t 1) + ind a (idx p.N r (t + 1) 1) +
        ind a (idx p.N r (t + 2) 1) ∧
      ind a (idx p.N r t 1) + ind a (idx p.N r (t + 1) 1) +
        ind a (idx p.N r (t + 2) 1) ≤ 2 := by
  have e1 : 1 + t = t + 1 := Nat.add_comm 1 t
  have e2 : 2 + t = t + 2 := Nat.add_comm 2 t
  have h1 := satAll_mem hsat
    (rowTriple_mem_buildModel ht hr (show (1 : ℕ) ∈ [0, 1] by simp))
  rw [satisfies_le_iff rfl, evalSum_rowTriple, e1, e2] at h1
  have h0 := satAll_mem hsat
    (rowTriple_mem_buildModel ht hr (show (0 : ℕ) ∈ [0, 1] by simp))
  rw [satisfies_le_iff rfl, evalSum_rowTriple, e1, e2] at h0
  have hc1 : t < p.N := by omega
  have hc2 : t + 1 < p.N := by omega
  have hc3 : t + 2 < p.N := by omega
  rw [ind_zero_eq (satAll_mem hsat (cellExcl_mem_buildModel hr hc1)),
    ind_zero_eq (satAll_mem hsat (cellExcl_mem_buildModel hr hc2)),
    ind_zero_eq (satAll_mem hsat (cellExcl_mem_buildModel hr hc3))] at h0
  have hr1 : (rowTripleConstr p.N t r 1).rhs = 2 := rfl
  have hr0 : (rowTripleConstr p.N t r 0).rhs = 2 := rfl
  rw [hr1] at h1
  rw [hr0] at h0
  constructor <;> omega

theorem colTriple_bounds {p : BinaryPuzzle} {a : List Bool}
    (hsat : satAll (buildModel p) a = true)
    {t : ℕ} (ht : t < p.N - 2) {c : ℕ} (hc : c < p.N) :
    1 ≤ ind a (idx p.N t c 1) + ind a (idx p.N (t + 1) c 1) +
        ind a (idx p.N (t + 2) c 1) ∧
      ind a (idx p.N t c 1) + ind a (idx p.N (t + 1) c 1) +
        ind a (idx p.N (t + 2) c 1) ≤ 2 := by
  have e1 : 1 + t = t + 1 := Nat.add_comm 1 t
  have e2 : 2 + t = t + 2 := Nat.add_comm 2 t
  have h1 := satAll_mem hsat
    (colTriple_mem_buildModel ht hc (show (1 : ℕ) ∈ [0, 1] by simp))
  rw [satisfies_le_iff rfl, evalSum_colTriple, e1, e2] at h1
  have h0 := satAll_mem hsat
    (colTriple_mem_buildModel ht hc (show (0 : ℕ) ∈ [0, 1] by simp))
  rw [satisfies_le_iff rfl, evalSum_colTriple, e1, e2] at h0
  have hr1 : t < p.N := by omega
  have hr2 : t + 1 < p.N := by omega
  have hr3 : t + 2 < p.N := by omega
  rw [ind_zero_eq (satAll_mem hsat (cellExcl_mem_buildModel hr1 hc)),
    ind_zero_eq (satAll_mem hsat (cellExcl_mem_buildModel hr2 hc)),
    ind_zero_eq (satAll_mem hsat (cellExcl_mem_buildModel hr3 hc))] at h0
  have hz1 : (colTripleConstr p.N t c 1).rhs = 2 := rfl
  have hz0 : (colTripleConstr p.N t c 0).rhs = 2 := rfl
  rw [hz1] at h1
  rw [hz0] at h0
  constructor <;> omega

theorem extract_triples {p : BinaryPuzzle} {a : List Bool}
    (hsat : satAll (buildModel p) a = true) :
    (extract a p.N).check_triples = true := by
  unfold BinaryPuzzle.check_triples
  rw [Bool.and_eq_true]
  constructor
  · rw [List.all_eq_true]
    intro row hrow
    unfold extract at hrow
    dsimp only at hrow
    rw [List.mem_map] at hrow
    obtain ⟨r, hrm, rfl⟩ := hrow
    rw [List.mem_range] at hrm
    unfold triplesRowOk
    rw [List.all_eq_true]
    intro i hi
    rw [List.mem_range, List.length_map, List.length_range] at hi
    have h3 : i + 3 ≤ p.N := by omega
    rw [map_range_window h3, extractCell_eq, extractCell_eq, extractCell_eq]
    obtain ⟨hlo, hhi⟩ := rowTriple_bounds hsat hi hrm
    have hne0 : ¬(ind a (idx p.N r i 1) + ind a (idx p.N r (i + 1) 1) +
        ind a (idx p.N r (i + 2) 1) = 0) := by omega
    have hne3 : ¬(ind a (idx p.N r i 1) + ind a (idx p.N r (i + 1) 1) +
        ind a (idx p.N r (i + 2) 1) = 3) := by omega
    simp [hne0, hne3]
  · rw [List.all_eq_true]
    intro col hcol
    unfold transposeSq at hcol
    rw [extract_grid_length, List.mem_map] at hcol
    obtain ⟨c, hcm, rfl⟩ := hcol
    rw [List.mem_range] at hcm
    rw [extract_col_eq a p.N c hcm]
    unfold triplesRowOk
    rw [List.all_eq_true]
    intro i hi
    rw [List.mem_range, List.length_map, List.length_range] at hi
    have h3 : i + 3 ≤ p.N := by omega
    rw [map_range_window h3, extractCell_eq, extractCell_eq, extractCell_eq]
    obtain ⟨hlo, hhi⟩ := colTriple_bounds hsat hi hcm
    have hne0 : ¬(ind a (idx p.N i c 1) + ind a (idx p.N (i + 1) c 1) +
        ind a (idx p.N (i + 2) c 1) = 0) := by omega
    have hne3 : ¬(ind a (idx p.N i c 1) + ind a (idx p.N (i + 1) c 1) +
        ind a (idx p.N (i + 2) c 1) = 3) := by omega
    simp [hne0, hne3]

/-- Counterexample to claim C2 as stated: for the all-UNKNOWN 4x4 grid, the
assignment encoding the duplicate-row grid 0101/0101/1010/1010 satisfies
every constraint of the model (exclusivity, parity, triples bounds, no
clues), yet the extracted grid fails `check` — row/column uniqueness is not
encoded in the linear model. -/
theorem claim_C2_cex :
    satAll
      (buildModel (BinaryPuzzle.mk
        [[-1, -1, -1, -1], [-1, -1, -1, -1],
         [-1, -1, -1, -1], [-1, -1, -1, -1]]))
      (encodeA (BinaryPuzzle.mk
        [[0, 1, 0, 1], [0, 1, 0, 1], [1, 0, 1, 0], [1, 0, 1, 0]])) = true ∧
    (extract
      (encodeA (BinaryPuzzle.mk
        [[0, 1, 0, 1], [0, 1, 0, 1], [1, 0, 1, 0], [1, 0, 1, 0]]))
      4).check = false := by
  constructor
  · decide
  · decide

/-- Claim C2 (amended): every assignment satisfying all constraints of the
built model extracts to a grid that passes the binary, parity and
no-triples predicates; the uniqueness predicate is not guaranteed (it is
not encoded linearly and is re-checked defensively by the enumerator). -/
theorem claim_C2 (p : BinaryPuzzle) (a : List Bool)
    (hsat : satAll (buildModel p) a = true) :
    (extract a p.N).check_binary = true ∧
    (extract a p.N).check_parity = true ∧
    (extract a p.N).check_triples = true :=
  ⟨extract_binary a p.N, extract_parity hsat, extract_triples hsat⟩

/-- Witness for C2: the encoding of the legal grid 01/10 satisfies the
model of the all-UNKNOWN 2x2 grid; the extraction passes the three encoded
predicates. -/
theorem claim_C2_witness :
    (extract (encodeA (BinaryPuzzle.mk [[0, 1], [1, 0]]))
      (BinaryPuzzle.mk [[-1, -1], [-1, -1]]).N).check_binary = true ∧
    (extract (encodeA (BinaryPuzzle.mk [[0, 1], [1, 0]]))
      (BinaryPuzzle.mk [[-1, -1], [-1, -1]]).N).check_parity = true ∧
    (extract (encodeA (BinaryPuzzle.mk [[0, 1], [1, 0]]))
      (BinaryPuzzle.mk [[-1, -1], [-1, -1]]).N).check_triples = true :=
  claim_C2 (BinaryPuzzle.mk [[-1, -1], [-1, -1]])
    (encodeA (BinaryPuzzle.mk [[0, 1], [1, 0]])) (by decide)

/-! ### A fully-filled legal grid has exactly one satisfying assignment -/

theorem N_def (p : BinaryPuzzle) : p.N = p.grid.length := rfl

theorem getD_grid_mem {p : BinaryPuzzle} {r : ℕ} (hr : r < p.N) :
    p.grid.getD r [] ∈ p.grid := by
  rw [N_def] at hr
  rw [List.getD_eq_getElem p.grid [] hr]
  exact List.getElem_mem hr

theorem row_length {p : BinaryPuzzle}
    (hsq : ∀ row ∈ p.grid, row.length = p.grid.length) {r : ℕ}
    (hr : r < p.N) : (p.grid.getD r []).length = p.N := by
  rw [N_def]
  exact hsq _ (getD_grid_mem hr)

theorem row_eq_map {p : BinaryPuzzle}
    (hsq : ∀ row ∈ p.grid, row.length = p.grid.length) {r : ℕ}
    (hr : r < p.N) :
    p.grid.getD r [] = (List.range p.N).map (fun c => p.cellAt r c) := by
  have hrlen := row_length hsq hr
  apply List.ext_getElem (by rw [hrlen]; simp)
  intro c h1 h2
  rw [List.getElem_map, List.getElem_range]
  unfold BinaryPuzzle.cellAt
  rw [List.getD_eq_getElem (p.grid.getD r []) (-1) h1]

theorem grid_eq_map (p : BinaryPuzzle) :
    p.grid = (List.range p.N).map (fun r => p.grid.getD r []) := by
  apply List.ext_getElem (by simp [N_def])
  intro r h1 h2
  rw [List.getElem_map, List.getElem_range, List.getD_eq_getElem p.grid [] h1]

theorem col_eq_map {p : BinaryPuzzle}
    (hsq : ∀ row ∈ p.grid, row.length = p.grid.length) {c : ℕ}
    (hc : c < p.N) :
    p.grid.map (fun row => row.getD c 0) =
      (List.range p.N).map (fun r => p.cellAt r c) := by
  conv_lhs => rw [grid_eq_map p]
  rw [List.map_map]
  apply List.map_congr_left
  intro r hrm
  rw [List.mem_range] at hrm
  simp only [Function.comp_apply]
  have hrlen := row_length hsq hrm
  unfold BinaryPuzzle.cellAt
  rw [List.getD_eq_getElem (p.grid.getD r []) 0 (by rw [hrlen]; exact hc),
    List.getD_eq_getElem (p.grid.getD r []) (-1) (by rw [hrlen]; exact hc)]

theorem cells_binary {p : BinaryPuzzle}
    (hsq : ∀ row ∈ p.grid, row.length = p.grid.length)
    (hb : p.check_binary = true) {r c : ℕ} (hr : r < p.N) (hc : c < p.N) :
    p.cellAt r c = 0 ∨ p.cellAt r c = 1 := by
  unfold BinaryPuzzle.check_binary at hb
  rw [List.all_eq_true] at hb
  have hrow := hb _ (getD_grid_mem hr)
  rw [List.all_eq_true] at hrow
  have hcl : p.cellAt r c ∈ p.grid.getD r [] := by
    unfold BinaryPuzzle.cellAt
    have hrlen := row_length hsq hr
    rw [List.getD_eq_getElem (p.grid.getD r []) (-1) (by rw [hrlen]; exact hc)]
    exact List.getElem_mem _
  have hv := hrow _ hcl
  simpa using hv

theorem row_parity_fact {p : BinaryPuzzle}
    (hsq : ∀ row ∈ p.grid, row.length = p.grid.length)
    (hpar : p.check_parity = true) {r : ℕ} (hr : r < p.N) :
    ((List.range p.N).map (fun c => p.cellAt r c)).sum = (p.N : ℤ) / 2 := by
  unfold BinaryPuzzle.check_parity at hpar
  rw [Bool.and_eq_true] at hpar
  have h2 := hpar.2
  rw [List.all_eq_true] at h2
  have h3 := h2 _ (getD_grid_mem hr)
  rw [beq_iff_eq] at h3
  rw [← row_eq_map hsq hr]
  exact h3

theorem col_parity_fact {p : BinaryPuzzle}
    (hsq : ∀ row ∈ p.grid, row.length = p.grid.length)
    (hpar : p.check_parity = true) {c : ℕ} (hc : c < p.N) :
    ((List.range p.N).map (fun r => p.cellAt r c)).sum = (p.N : ℤ) / 2 := by
  unfold BinaryPuzzle.check_parity at hpar
  rw [Bool.and_eq_true] at hpar
  have h1 := hpar.1
  unfold transposeSq at h1
  rw [List.all_eq_true] at h1
  have hmem : p.grid.map (fun row => row.getD c 0) ∈
      (List.range p.grid.length).map
        (fun c2 => p.grid.map (fun row => row.getD c2 0)) := by
    rw [List.mem_map]
    refine ⟨c, ?_, rfl⟩
    rw [List.mem_range, ← N_def]
    exact hc
  have h3 := h1 _ hmem
  rw [beq_iff_eq] at h3
  rw [← col_eq_map hsq hc]
  exact h3

theorem row_triples_fact {p : BinaryPuzzle}
    (hsq : ∀ row ∈ p.grid, row.length = p.grid.length)
    (htr : p.check_triples = true) {r : ℕ} (hr : r < p.N) {t : ℕ}
    (ht : t < p.N - 2) :
    ¬(p.cellAt r t + p.cellAt r (t + 1) + p.cellAt r (t + 2) = 0) ∧
    ¬(p.cellAt r t + p.cellAt r (t + 1) + p.cellAt r (t + 2) = 3) := by
  unfold BinaryPuzzle.check_triples at htr
  rw [Bool.and_eq_true] at htr
  have h1 := htr.1
  rw [List.all_eq_true] at h1
  have hrow := h1 _ (getD_grid_mem hr)
  unfold triplesRowOk at hrow
  rw [List.all_eq_true] at hrow
  have hwin := hrow t (by
    rw [List.mem_range, row_length hsq hr]
    exact ht)
  rw [row_eq_map hsq hr, map_range_window (by omega)] at hwin
  simpa using hwin

theorem col_triples_fact {p : BinaryPuzzle}
    (hsq : ∀ row ∈ p.grid, row.length = p.grid.length)
    (htr : p.check_triples = true) {c : ℕ} (hc : c < p.N) {t : ℕ}
    (ht : t < p.N - 2) :
    ¬(p.cellAt t c + p.cellAt (t + 1) c + p.cellAt (t + 2) c = 0) ∧
    ¬(p.cellAt t c + p.cellAt (t + 1) c + p.cellAt (t + 2) c = 3) := by
  unfold BinaryPuzzle.check_triples at htr
  rw [Bool.and_eq_true] at htr
  have h1 := htr.2
  unfold transposeSq at h1
  rw [List.all_eq_true] at h1
  have hmem : p.grid.map (fun row => row.getD c 0) ∈
      (List.range p.grid.length).map
        (fun c2 => p.grid.map (fun row => row.getD c2 0)) := by
    rw [List.mem_map]
    refine ⟨c, ?_, rfl⟩
    rw [List.mem_range, ← N_def]
    exact hc
  have hcol := h1 _ hmem
  unfold triplesRowOk at hcol
  rw [List.all_eq_true] at hcol
  have hlen : (p.grid.map (fun row => row.getD c 0)).length = p.N := by
    rw [List.length_map, N_def]
  have hwin := hcol t (by
    rw [List.mem_range, hlen]
    exact ht)
  rw [col_eq_map hsq hc, map_range_window (by omega)] at hwin
  simpa using hwin

theorem encodeA_length (p : BinaryPuzzle) :
    (encodeA p).length = 2 * p.N * p.N := by
  unfold encodeA
  simp

theorem encodeA_mem (p : BinaryPuzzle) : encodeA p ∈ allAssign p.N :=
  mem_allAssign.mpr (encodeA_length p)

theorem encodeA_getD {p : BinaryPuzzle} {r c v : ℕ} (hr : r < p.N)
    (hc : c < p.N) (hv : v < 2) :
    (encodeA p).getD (idx p.N r c v) false =
      (p.cellAt r c == ((v : ℕ) : ℤ)) := by
  unfold encodeA
  rw [getD_map_range _ _ _ (idx_lt hr hc hv)]
  have hd := idx_div2 p.N r c v hv
  have hrc := rc_decomp r (lt_of_le_of_lt (Nat.zero_le r) hr) hc
  rw [hd.1, hd.2, hrc.1, hrc.2]

theorem encodeA_ind {p : BinaryPuzzle} {r c v : ℕ} (hr : r < p.N)
    (hc : c < p.N) (hv : v < 2) :
    ind (encodeA p) (idx p.N r c v) =
      (if p.cellAt r c = ((v : ℕ) : ℤ) then 1 else 0) := by
  unfold ind
  rw [encodeA_getD hr hc hv]
  by_cases h : p.cellAt r c = ((v : ℕ) : ℤ)
  · simp [h]
  · simp [h]

theorem encodeA_ind_one {p : BinaryPuzzle}
    (hsq : ∀ row ∈ p.grid, row.length = p.grid.length)
    (hb : p.check_binary = true) {r c : ℕ} (hr : r < p.N) (hc : c < p.N) :
    ind (encodeA p) (idx p.N r c 1) = p.cellAt r c := by
  rw [encodeA_ind hr hc (by omega)]
  rcases cells_binary hsq hb hr hc with h | h <;> rw [h] <;> norm_num

theorem encodeA_ind_zero {p : BinaryPuzzle}
    (hsq : ∀ row ∈ p.grid, row.length = p.grid.length)
    (hb : p.check_binary = true) {r c : ℕ} (hr : r < p.N) (hc : c < p.N) :
    ind (encodeA p) (idx p.N r c 0) = 1 - p.cellAt r c := by
  rw [encodeA_ind hr hc (by omega)]
  rcases cells_binary hsq hb hr hc with h | h <;> rw [h] <;> norm_num

theorem sum_map_sub {α : Type} (l : List α) (f g : α → ℤ) :
    (l.map (fun x => f x - g x)).sum = (l.map f).sum - (l.map g).sum := by
  induction l with
  | nil => simp
  | cons x t ih =>
    simp only [List.map_cons, List.sum_cons, ih]
    ring

theorem sum_map_one (l : List ℕ) : (l.map (fun _ => (1 : ℤ))).sum =
    (l.length : ℤ) := by
  induction l with
  | nil => simp
  | cons x t ih =>
    simp only [List.map_cons, List.sum_cons, ih, List.length_cons]
    push_cast
    ring

/-- The assignment encoding a fully-filled legal grid satisfies every
constraint of the model built from that grid. -/
theorem encodeA_sat {p : BinaryPuzzle}
    (hsq : ∀ row ∈ p.grid, row.length = p.grid.length)
    (hev : p.grid.length % 2 = 0) (hchk : p.check = true) :
    satAll (buildModel p) (encodeA p) = true := by
  unfold BinaryPuzzle.check at hchk
  rw [Bool.and_eq_true, Bool.and_eq_true, Bool.and_eq_true] at hchk
  obtain ⟨⟨⟨hb, hpar⟩, htri⟩, _⟩ := hchk
  have hevN : (p.N : ℤ) % 2 = 0 := by
    rw [N_def]
    omega
  unfold satAll
  rw [List.all_eq_true]
  intro con hcon
  unfold buildModel at hcon
  rw [List.mem_append, List.mem_append, List.mem_append, List.mem_append]
    at hcon
  rcases hcon with ((((h | h) | h) | h) | h)
  · rw [List.mem_flatMap] at h
    obtain ⟨r, hrm, h⟩ := h
    rw [List.mem_range] at hrm
    rw [List.mem_map] at h
    obtain ⟨c, hcm, rfl⟩ := h
    rw [List.mem_range] at hcm
    rw [satisfies_eq_iff rfl, evalSum_cellExcl]
    have hrhs : (cellExclConstr p.N r c).rhs = 1 := rfl
    rw [hrhs, encodeA_ind_zero hsq hb hrm hcm,
      encodeA_ind_one hsq hb hrm hcm]
    ring
  · rw [List.mem_flatMap] at h
    obtain ⟨r, hrm, h⟩ := h
    rw [List.mem_range] at hrm
    rw [List.mem_map] at h
    obtain ⟨v, hvm, rfl⟩ := h
    rw [satisfies_eq_iff rfl, evalSum_rowParity]
    have hrhs : (rowParityConstr p.N r v).rhs = (p.N : ℤ) / 2 := rfl
    rw [hrhs]
    rcases List.mem_cons.mp hvm with rfl | hvm2
    · have hcong : (List.range p.N).map
          (fun c => ind (encodeA p) (idx p.N r c 0)) =
          (List.range p.N).map (fun c => (1 : ℤ) - p.cellAt r c) := by
        apply List.map_congr_left
        intro c hcm
        rw [List.mem_range] at hcm
        exact encodeA_ind_zero hsq hb hrm hcm
      rw [hcong, sum_map_sub, sum_map_one, List.length_range,
        row_parity_fact hsq hpar hrm]
      omega
    · rcases List.mem_singleton.mp hvm2 with rfl
      have hcong : (List.range p.N).map
          (fun c => ind (encodeA p) (idx p.N r c 1)) =
          (List.range p.N).map (fun c => p.cellAt r c) := by
        apply List.map_congr_left
        intro c hcm
        rw [List.mem_range] at hcm
        exact encodeA_ind_one hsq hb hrm hcm
      rw [hcong, row_parity_fact hsq hpar hrm]
  · rw [List.mem_flatMap] at h
    obtain ⟨c, hcm, h⟩ := h
    rw [List.mem_range] at hcm
    rw [List.mem_map] at h
    obtain ⟨v, hvm, rfl⟩ := h
    rw [satisfies_eq_iff rfl, evalSum_colParity]
    have hrhs : (colParityConstr p.N c v).rhs = (p.N : ℤ) / 2 := rfl
    rw [hrhs]
    rcases List.mem_cons.mp hvm with rfl | hvm2
    · have hcong : (List.range p.N).map
          (fun r => ind (encodeA p) (idx p.N r c 0)) =
          (List.range p.N).map (fun r => (1 : ℤ) - p.cellAt r c) := by
        apply List.map_congr_left
        intro r hrm
        rw [List.mem_range] at hrm
        exact encodeA_ind_zero hsq hb hrm hcm
      rw [hcong, sum_map_sub, sum_map_one, List.length_range,
        col_parity_fact hsq hpar hcm]
      omega
    · rcases List.mem_singleton.mp hvm2 with rfl
      have hcong : (List.range p.N).map
          (fun r => ind (encodeA p) (idx p.N r c 1)) =
          (List.range p.N).map (fun r => p.cellAt r c) := by
        apply List.map_congr_left
        intro r hrm
        rw [List.mem_range] at hrm
        exact encodeA_ind_one hsq hb hrm hcm
      rw [hcong, col_parity_fact hsq hpar hcm]
  · rw [List.mem_flatMap] at h
    obtain ⟨t, htm, h⟩ := h
    rw [List.mem_range] at htm
    rw [List.mem_flatMap] at h
    obtain ⟨v, hvm, h⟩ := h
    rw [List.mem_append] at h
    have hc1 : t < p.N := by omega
    have hc2 : t + 1 < p.N := by omega
    have hc3 : t + 2 < p.N := by omega
    have e1 : 1 + t = t + 1 := Nat.add_comm 1 t
    have e2 : 2 + t = t + 2 := Nat.add_comm 2 t
    rcases h with h | h
    · rw [List.mem_map] at h
      obtain ⟨r, hrm, rfl⟩ := h
      rw [List.mem_range] at hrm
      rw [satisfies_le_iff rfl, evalSum_rowTriple]
      have hrhs : (rowTripleConstr p.N t r v).rhs = 2 := rfl
      rw [hrhs, e1, e2]
      have hf := row_triples_fact hsq htri hrm htm
      have hbb1 : 0 ≤ p.cellAt r t ∧ p.cellAt r t ≤ 1 := by
        rcases cells_binary hsq hb hrm hc1 with h1 | h1 <;> rw [h1] <;>
          norm_num
      have hbb2 : 0 ≤ p.cellAt r (t + 1) ∧ p.cellAt r (t + 1) ≤ 1 := by
        rcases cells_binary hsq hb hrm hc2 with h1 | h1 <;> rw [h1] <;>
          norm_num
      have hbb3 : 0 ≤ p.cellAt r (t + 2) ∧ p.cellAt r (t + 2) ≤ 1 := by
        rcases cells_binary hsq hb hrm hc3 with h1 | h1 <;> rw [h1] <;>
          norm_num
      rcases List.mem_cons.mp hvm with rfl | hvm2
      · rw [encodeA_ind_zero hsq hb hrm hc1, encodeA_ind_zero hsq hb hrm hc2,
          encodeA_ind_zero hsq hb hrm hc3]
        omega
      · rcases List.mem_singleton.mp hvm2 with rfl
        rw [encodeA_ind_one hsq hb hrm hc1, encodeA_ind_one hsq hb hrm hc2,
          encodeA_ind_one hsq hb hrm hc3]
        omega
    · rw [List.mem_map] at h
      obtain ⟨c, hcm, rfl⟩ := h
      rw [List.mem_range] at hcm
      rw [satisfies_le_iff rfl, evalSum_colTriple]
      have hrhs : (colTripleConstr p.N t c v).rhs = 2 := rfl
      rw [hrhs, e1, e2]
      have hf := col_triples_fact hsq htri hcm htm
      have hbb1 : 0 ≤ p.cellAt t c ∧ p.cellAt t c ≤ 1 := by
        rcases cells_binary hsq hb hc1 hcm with h1 | h1 <;> rw [h1] <;>
          norm_num
      have hbb2 : 0 ≤ p.cellAt (t + 1) c ∧ p.cellAt (t + 1) c ≤ 1 := by
        rcases cells_binary hsq hb hc2 hcm with h1 | h1 <;> rw [h1] <;>
          norm_num
      have hbb3 : 0 ≤ p.cellAt (t + 2) c ∧ p.cellAt (t + 2) c ≤ 1 := by
        rcases cells_binary hsq hb hc3 hcm with h1 | h1 <;> rw [h1] <;>
          norm_num
      rcases List.mem_cons.mp hvm with rfl | hvm2
      · rw [encodeA_ind_zero hsq hb hc1 hcm, encodeA_ind_zero hsq hb hc2 hcm,
          encodeA_ind_zero hsq hb hc3 hcm]
        omega
      · rcases List.mem_singleton.mp hvm2 with rfl
        rw [encodeA_ind_one hsq hb hc1 hcm, encodeA_ind_one hsq hb hc2 hcm,
          encodeA_ind_one hsq hb hc3 hcm]
        omega
  · rw [List.mem_flatMap] at h
    obtain ⟨r, hrm, h⟩ := h
    rw [List.mem_range] at hrm
    rw [List.mem_filterMap] at h
    obtain ⟨c, hcm, hsome⟩ := h
    rw [List.mem_range] at hcm
    by_cases hne : p.cellAt r c ≠ -1
    · rw [if_pos hne] at hsome
      injection hsome with hsome
      subst hsome
      rw [satisfies_eq_iff rfl, evalSum_clue]
      have hrhs : (clueConstr p.N r c (p.cellAt r c)).rhs = p.cellAt r c :=
        rfl
      rw [hrhs, encodeA_ind_one hsq hb hrm hcm]
    · rw [if_neg hne] at hsome
      exact Option.noConfusion hsome

/-- On a fully-filled binary grid the clue constraints pin every variable:
the encoding assignment is the only satisfying one. -/
theorem sat_unique {p : BinaryPuzzle}
    (hsq : ∀ row ∈ p.grid, row.length = p.grid.length)
    (hb : p.check_binary = true) :
    ∀ b ∈ allAssign p.N, satAll (buildModel p) b = true → b = encodeA p := by
  intro b hbmem hbsat
  apply List.ext_getElem (by rw [mem_allAssign.mp hbmem, encodeA_length])
  intro i hi1 hi2
  obtain ⟨r, hr, c, hc, v, hv, rfl⟩ := idx_decomp (mem_allAssign.mp hbmem ▸ hi1)
  have hcell := cells_binary hsq hb hr hc
  have hclue : p.cellAt r c ≠ -1 := by
    rcases hcell with h | h <;> rw [h] <;> norm_num
  have hs := satAll_mem hbsat (clue_mem_buildModel hr hc hclue)
  rw [satisfies_eq_iff rfl, evalSum_clue] at hs
  have hrr : (clueConstr p.N r c (p.cellAt r c)).rhs = p.cellAt r c := rfl
  rw [hrr] at hs
  have h1 : b.getD (idx p.N r c 1) false = (p.cellAt r c == (1 : ℤ)) := by
    unfold ind at hs
    rcases hcell with h | h <;> rw [h] at hs ⊢ <;>
      cases hbv : b.getD (idx p.N r c 1) false <;> rw [hbv] at hs <;>
      simp_all
  have hgd : b.getD (idx p.N r c v) false =
      (encodeA p).getD (idx p.N r c v) false := by
    rw [encodeA_getD hr hc hv]
    interval_cases v
    · have hex := excl_pair (satAll_mem hbsat (cellExcl_mem_buildModel hr hc))
      rw [hex, h1]
      rcases hcell with h | h <;> rw [h] <;> decide
    · exact h1
  rw [List.getD_eq_getElem b false hi1,
    List.getD_eq_getElem (encodeA p) false hi2] at hgd
  exact hgd

/-- Extraction inverts the encoding on a fully-filled binary grid. -/
theorem extract_encodeA {p : BinaryPuzzle}
    (hsq : ∀ row ∈ p.grid, row.length = p.grid.length)
    (hb : p.check_binary = true) :
    extract (encodeA p) p.N = p := by
  apply puzzle_ext
  unfold extract
  dsimp only
  conv_rhs => rw [grid_eq_map p]
  apply List.map_congr_left
  intro r hrm
  rw [List.mem_range] at hrm
  rw [row_eq_map hsq hrm]
  apply List.map_congr_left
  intro c hcm
  rw [List.mem_range] at hcm
  rw [extractCell_eq, encodeA_ind_one hsq hb hrm hcm]

/-- Claim C3: for a constructible, fully-filled grid on which `check` is
true, `solve` returns a content-equal grid and it is the unique solution:
`solve_all` returns exactly that one grid.  (Full filling is implied by the
binary rule: a legal grid has no UNKNOWN cell.) -/
theorem claim_C3 (g : List (List ℤ)) (p : BinaryPuzzle)
    (oracle : List Constr → Option (List Bool))
    (hcon : construct g = Except.ok p) (hok : OracleOk p.N oracle)
    (hchk : p.check = true) :
    solve oracle p = some (some p) ∧ solve_all oracle p = some [p] := by
  obtain ⟨hne, hsq, hev, _⟩ := construct_ok_shape g p hcon
  have hb : p.check_binary = true := by
    unfold BinaryPuzzle.check at hchk
    simp only [Bool.and_eq_true] at hchk
    exact hchk.1.1.1
  have hsat := encodeA_sat hsq hev hchk
  have hself : satisfies (encodeA p) (exclusionConstr p.N (encodeA p)) =
      false :=
    self_excl_false
      (fun r hr c hc => satAll_mem hsat (cellExcl_mem_buildModel hr hc))
  have hora : oracle (buildModel p) = some (encodeA p) := by
    cases ho : oracle (buildModel p) with
    | none =>
      have hcontra := hok (buildModel p)
      rw [ho] at hcontra
      have h2 := hcontra (encodeA p) (encodeA_mem p)
      rw [hsat] at h2
      exact Bool.noConfusion h2
    | some b =>
      have hcb := hok (buildModel p)
      rw [ho] at hcb
      rw [sat_unique hsq hb b hcb.1 hcb.2]
  have hex : extract (encodeA p) p.N = p := extract_encodeA hsq hb
  constructor
  · unfold solve bigFuel
    rw [solveLoop, hora]
    dsimp only
    rw [hex, if_pos hchk]
  · unfold solve_all bigFuel
    rw [solveAllLoop, hora]
    dsimp only
    rw [hex, if_pos hchk, List.nil_append]
    have hlen : (allAssign p.N).length = ((allAssign p.N).length - 1) + 1 := by
      have := allAssign_pos p.N
      omega
    have hora2 : oracle (buildModel p ++ [exclusionConstr p.N (encodeA p)]) =
        none := by
      cases ho2 : oracle (buildModel p ++ [exclusionConstr p.N (encodeA p)])
        with
      | none => rfl
      | some b =>
        have hcb := hok (buildModel p ++ [exclusionConstr p.N (encodeA p)])
        rw [ho2] at hcb
        have hbsat := hcb.2
        rw [satAll_append, Bool.and_eq_true] at hbsat
        have hbb : b = encodeA p := sat_unique hsq hb b hcb.1 hbsat.1
        have h2 := hbsat.2
        rw [hbb] at h2
        unfold satAll at h2
        simp [hself] at h2
    rw [hlen, solveAllLoop, hora2]

/-- Witness for C3: a fully-filled legal 4x4 grid is returned content-equal
by `solve` and is the unique result of `solve_all` under the brute-force
solver. -/
theorem claim_C3_witness :
    solve (bruteOracle 4) (BinaryPuzzle.mk
        [[0, 0, 1, 1], [1, 1, 0, 0], [0, 1, 0, 1], [1, 0, 1, 0]]) =
      some (some (BinaryPuzzle.mk
        [[0, 0, 1, 1], [1, 1, 0, 0], [0, 1, 0, 1], [1, 0, 1, 0]])) ∧
    solve_all (bruteOracle 4) (BinaryPuzzle.mk
        [[0, 0, 1, 1], [1, 1, 0, 0], [0, 1, 0, 1], [1, 0, 1, 0]]) =
      some [BinaryPuzzle.mk
        [[0, 0, 1, 1], [1, 1, 0, 0], [0, 1, 0, 1], [1, 0, 1, 0]]] :=
  claim_C3 [[0, 0, 1, 1], [1, 1, 0, 0], [0, 1, 0, 1], [1, 0, 1, 0]]
    (BinaryPuzzle.mk
      [[0, 0, 1, 1], [1, 1, 0, 0], [0, 1, 0, 1], [1, 0, 1, 0]])
    (bruteOracle 4) (by decide) (bruteOracle_ok 4) (by decide)

end BinPuz
